import Mathlib

set_option maxRecDepth 8192

/-!
# Verification of the lkg-yaz-scripts reference-normalization and graph-inference core

Shallow embedding of `scripts/graphutils.py` and `scripts/utils.py`.

Modelling conventions:
* RDF terms (URIs and literals) are modelled as `List Char`.  A literal
  `Literal(v)` is modelled by prefixing a `'"'` character, which never occurs
  in a URI, so literals and URIs never collide.
* An `rdflib.Graph` is a set of triples.  We model it as a duplicate-free
  list in insertion order: `Graph.add` is a no-op when the triple is already
  present, exactly like rdflib's set semantics; `objects`/`subjects`/`value`
  are filters over the list, matching rdflib's generator queries.
* Python's module-level `autoinc_id_counts` dict is modelled as an explicit
  association list threaded through the functions that read or write it.
* Python code that raises (`KeyError` on a missing dict key, rdflib's
  assertion on a `None` term, `ValueError` from `int()`, numpy `max` on an
  empty array) is modelled with `Option`: `none` is an aborted run.
-/

/-- An RDF term: the character list of a URI, or `'"' :: value` for a literal. -/
abbrev Node := List Char

/-- A literal term (`rdflib.Literal`).  Datatype/language tags play no role in
any verified property, so only the symbolic content is kept. -/
def lit (v : Node) : Node := '"' :: v

/-- An RDF triple `(subject, predicate, object)`. -/
abbrev Triple := Node × Node × Node

/-- In-memory triple store (`rdflib.Graph`): a duplicate-free list of triples
in insertion order. -/
structure Graph where
  triples : List Triple
deriving DecidableEq

/-- Exact triple lookup (`t in graph`). -/
def Graph.has (g : Graph) (t : Triple) : Prop := t ∈ g.triples

instance (g : Graph) (t : Triple) : Decidable (g.has t) :=
  inferInstanceAs (Decidable (t ∈ g.triples))

/-- `graph.add(t)`: idempotent insertion (rdflib graphs are triple sets). -/
def Graph.add (g : Graph) (t : Triple) : Graph :=
  if t ∈ g.triples then g else ⟨g.triples ++ [t]⟩

/-- `graph.remove(t)`: delete a triple. -/
def Graph.remove (g : Graph) (t : Triple) : Graph :=
  ⟨g.triples.filter (fun u => decide (u ≠ t))⟩

/-- `graph.objects(s, p)`: objects of all triples with subject `s` and
predicate `p`, in store order. -/
def Graph.objects (g : Graph) (s p : Node) : List Node :=
  (g.triples.filter (fun t => decide (t.1 = s ∧ t.2.1 = p))).map (fun t => t.2.2)

/-- `graph.subjects(p, o)`: subjects of all triples with predicate `p` and
object `o`, in store order. -/
def Graph.subjects (g : Graph) (p o : Node) : List Node :=
  (g.triples.filter (fun t => decide (t.2.1 = p ∧ t.2.2 = o))).map (fun t => t.1)

/-- `graph.predicates(s, o)`: predicates of all triples linking `s` to `o`. -/
def Graph.predicates (g : Graph) (s o : Node) : List Node :=
  (g.triples.filter (fun t => decide (t.1 = s ∧ t.2.2 = o))).map (fun t => t.2.1)

/-- `graph.value(s, p)`: the first matching object, or `None`. -/
def Graph.value (g : Graph) (s p : Node) : Option Node :=
  (g.objects s p).head?

/-- `graph.predicate_objects(s)`: all `(p, o)` pairs of triples with subject `s`. -/
def Graph.predicate_objects (g : Graph) (s : Node) : List (Node × Node) :=
  (g.triples.filter (fun t => decide (t.1 = s))).map (fun t => t.2)

/-- `make_base_graph()`: a fresh graph (namespace binds carry no triples). -/
def make_base_graph : Graph := ⟨[]⟩

/-- Merge (`graph += other`): add every triple of the second graph. -/
def Graph.merge (g other : Graph) : Graph :=
  other.triples.foldl Graph.add g

/-! ## Vocabulary

URI constants used by the embedded functions.  The `namespaces` package of
the repository defines `LKG` with namespace `http://lkg.org.pl/ns/lkg-core/`;
the CIDOC and LRMOO namespace modules are not under `src/`, so their standard
namespace URIs are used (only distinctness and the `namespace ++ local_id`
shape matter to the verified properties). -/

/-- `LKG._NS` from `namespaces/_LKG.py`. -/
def lkgNS : Node := ("http://lkg.org.pl/ns/lkg-core/").toList

/-- `LKG[id]`: a URI in the LKG namespace. -/
def LKG (id : Node) : Node := lkgNS ++ id

def cidocNS : Node := ("http://www.cidoc-crm.org/cidoc-crm/").toList

def CIDOC (id : Node) : Node := cidocNS ++ id

def lrmooNS : Node := ("http://iflastandards.info/ns/lrm/lrmoo/").toList

def LRMOO (id : Node) : Node := lrmooNS ++ id

def RDF_type : Node := ("http://www.w3.org/1999/02/22-rdf-syntax-ns#type").toList

def RDFS_label : Node := ("http://www.w3.org/2000/01/rdf-schema#label").toList

/-- `UILABEL = SKOS.prefLabel` -/
def UILABEL : Node := ("http://www.w3.org/2004/02/skos/core#prefLabel").toList

/-- `ORDERLABEL = SKOS.hiddenLabel` -/
def ORDERLABEL : Node := ("http://www.w3.org/2004/02/skos/core#hiddenLabel").toList

/-- `SEARCHLABEL = SKOS.altLabel` -/
def SEARCHLABEL : Node := ("http://www.w3.org/2004/02/skos/core#altLabel").toList

def R5_has_component : Node := LRMOO ("R5_has_component").toList
def R5i_is_component_of : Node := LRMOO ("R5i_is_component_of").toList
def R76_is_derivative_of : Node := LRMOO ("R76_is_derivative_of").toList
def R3_is_realised_in : Node := LRMOO ("R3_is_realised_in").toList
def R3i_realises : Node := LRMOO ("R3i_realises").toList
def R16_created : Node := LRMOO ("R16_created").toList
def R16i_was_created_by : Node := LRMOO ("R16i_was_created_by").toList
def R17i_was_created_by : Node := LRMOO ("R17i_was_created_by").toList
def R19_created_a_realisation_of : Node := LRMOO ("R19_created_a_realisation_of").toList
def R19i_was_realised_through : Node := LRMOO ("R19i_was_realised_through").toList
def F1_Work : Node := LRMOO ("F1_Work").toList
def F2_Expression : Node := LRMOO ("F2_Expression").toList
def F27_Work_Creation : Node := LRMOO ("F27_Work_Creation").toList

def S761_is_translation_of : Node := LKG ("S761_is_translation_of").toList
def S762_is_altered_form_of : Node := LKG ("S762_is_altered_form_of").toList
def S763_is_reduced_form_of : Node := LKG ("S763_is_reduced_form_of").toList
def S764_is_extended_form_of : Node := LKG ("S764_is_extended_form_of").toList

def S141_composed_by : Node := LKG ("S141_composed_by").toList
def S142_written_by : Node := LKG ("S142_written_by").toList
def S143_translated_by : Node := LKG ("S143_translated_by").toList
def S144_edited_by : Node := LKG ("S144_edited_by").toList
def S146_performed_by : Node := LKG ("S146_performed_by").toList
def S147_directed_by : Node := LKG ("S147_directed_by").toList

def P102_has_title : Node := CIDOC ("P102_has_title").toList
def P1_is_identified_by : Node := CIDOC ("P1_is_identified_by").toList
def P72_has_language : Node := CIDOC ("P72_has_language").toList
def E21_Person : Node := CIDOC ("E21_Person").toList

/-- `LKG["SKIP"]`: the transient skip-marker predicate. -/
def SKIP : Node := LKG ("SKIP").toList

/-- The five derivative-type predicates (the alternation used by
`derivpath` / `derivoptions` / `derivrels` in `graphutils.py`). -/
def derivPreds : List Node :=
  [R76_is_derivative_of, S761_is_translation_of, S762_is_altered_form_of,
   S763_is_reduced_form_of, S764_is_extended_form_of]

/-! ## `remove_tempflags` (graphutils.py lines 838-840)

```python
def remove_tempflags(graph: Graph):
    for s in graph.triples((None, LKG["SKIP"], None)):
        graph.remove(s)
```

The iteration is modelled over a snapshot of the matching triples (rdflib
yields them from its index; all of them are removed). -/

def remove_tempflags (graph : Graph) : Graph :=
  (graph.triples.filter (fun t => decide (t.2.1 = SKIP))).foldl Graph.remove graph

/-! ## Identifier Allocator (graphutils.py lines 35, 101-128 and 38-59)

`autoinc_id_counts` is a module-level `dict[str, int]`, modelled as an
association list threaded explicitly. -/

/-- The state of the module-level `autoinc_id_counts` dictionary. -/
abbrev AllocState := List (Node × Nat)

/-- Dictionary lookup: `autoinc_id_counts[p]` if present. -/
def alookup (s : AllocState) (p : Node) : Option Nat :=
  (s.find? (fun q => decide (q.1 = p))).map (fun q => q.2)

/-- Dictionary update: `autoinc_id_counts[p] = n`. -/
def aset (s : AllocState) (p : Node) (n : Nat) : AllocState :=
  match s with
  | [] => [(p, n)]
  | q :: rest => if q.1 = p then (p, n) :: rest else q :: aset rest p n

/-- Fuelled digit expansion (most-significant first); `fuel ≥ n` is enough. -/
def natCharsAux : Nat → Nat → List Char
  | 0, _ => []
  | _ + 1, 0 => []
  | fuel + 1, n => natCharsAux fuel (n / 10) ++ [Nat.digitChar (n % 10)]

/-- Decimal digit expansion of a natural number as characters (Python
`str(n)`): most-significant digit first, `"0"` for zero. -/
def natChars (n : Nat) : List Char :=
  if n = 0 then ['0'] else natCharsAux n n

/-- `make_autoinc_id(prefix)`: returns `f"{prefix}_{count}"` and increments
the per-prefix counter (creating it at 0 when absent). -/
def make_autoinc_id (pfx : Node) (s : AllocState) : Node × AllocState :=
  (pfx ++ '_' :: natChars ((alookup s pfx).getD 0),
   aset s pfx ((alookup s pfx).getD 0 + 1))

/-- `get_id_from_uri(uri)`: the part after the last `"/"`, else after the
last `"#"`, else the whole string (`str.rsplit` with `maxsplit=1`). -/
def get_id_from_uri (uri : Node) : Node :=
  if '/' ∈ uri then (uri.reverse.takeWhile (fun c => c ≠ '/')).reverse
  else if '#' ∈ uri then (uri.reverse.takeWhile (fun c => c ≠ '#')).reverse
  else uri

/-- `get_class_prefix(id)` (source name `get_class_prefix`): the part of a
local ID before the first underscore (`id.split("_")[0]`). -/
def get_class_pfx (id : Node) : Node := id.takeWhile (fun c => c ≠ '_')

/-- `"E21_P0".rsplit("_", maxsplit=1)[-1]`: the part after the last
underscore (the whole string when there is none). -/
def after_last_underscore (s : Node) : Node :=
  (s.reverse.takeWhile (fun c => c ≠ '_')).reverse

/-- Python `int(s)` on the result of stripping leading ASCII letters:
`none` models the `ValueError` on a malformed (non-numeric) suffix. -/
def parseNat (s : Node) : Option Nat :=
  if s ≠ [] ∧ s.all Char.isDigit then
    some (s.foldl (fun acc c => 10 * acc + (c.toNat - 48)) 0)
  else none

/-- The numeric suffix scan of `import_lkg` for one entity class:
`rsplit("_", 1)[-1]`, `lstrip(ascii_letters)`, `astype(int)`.  `none` models
the fatal `ValueError`/empty-`max` abort. -/
def scan_numeric_suffixes (subjectUris : List Node) : Option Nat :=
  match subjectUris.mapM (fun u => parseNat ((after_last_underscore u).dropWhile Char.isAlpha)) with
  | none => none
  | some [] => none
  | some (n :: ns) => some (ns.foldl max n)

/-- The per-class counter-resumption step of `import_lkg` (lines 47-52) for
one class of `simple_ids + prefixed_ids`:
`autoinc_id_counts[prefix] = numbers.max() + 1`. -/
def import_lkg_resume_class (g : Graph) (classUri : Node) (s : AllocState) :
    Option AllocState :=
  (scan_numeric_suffixes (g.subjects RDF_type classUri)).map
    (fun m => aset s (get_class_pfx (get_id_from_uri classUri)) (m + 1))

/-! ## Derivative-path closure (the `derivpath` property path)

`(R76 | S761 | S762 | S763 | S764) * OneOrMore` evaluated with
`unique=True`: breadth-first reachability in one or more hops, each result
reported once. -/

/-- One forward hop along any derivative-type predicate, in store order. -/
def derivStep (g : Graph) (x : Node) : List Node :=
  (g.triples.filter (fun t => decide (t.1 = x ∧ t.2.1 ∈ derivPreds))).map (fun t => t.2.2)

/-- One backward hop along any derivative-type predicate, in store order. -/
def derivStepRev (g : Graph) (x : Node) : List Node :=
  (g.triples.filter (fun t => decide (t.2.2 = x ∧ t.2.1 ∈ derivPreds))).map (fun t => t.1)

/-- Worklist closure with fuel; `closureFuel` below over-approximates the
total number of worklist pops, so the fuel never runs out at call sites. -/
def closureAux (succ : Node → List Node) : Nat → List Node → List Node → List Node
  | 0, _, visited => visited
  | _ + 1, [], visited => visited
  | fuel + 1, x :: frontier, visited =>
    if x ∈ visited then closureAux succ fuel frontier visited
    else closureAux succ fuel (frontier ++ succ x) (visited ++ [x])

def closureFuel (g : Graph) : Nat :=
  2 * g.triples.length * g.triples.length + 2 * g.triples.length + 2

/-- `graph.objects(x, derivpath, unique=True)`: every node reachable from
`x` in one or more derivative-type hops. -/
def derivPathObjects (g : Graph) (x : Node) : List Node :=
  closureAux (derivStep g) (closureFuel g) (derivStep g x) []

/-- `graph.subjects(derivpath, x, unique=True)`: every node from which `x`
is reachable in one or more derivative-type hops. -/
def derivPathSubjects (g : Graph) (x : Node) : List Node :=
  closureAux (derivStepRev g) (closureFuel g) (derivStepRev g x) []

/-! ## Work Inference Engine: `infer_works` (graphutils.py lines 552-615) -/

/-- `copyprops` of `infer_works`. -/
def copyprops : List Node :=
  [P102_has_title, P1_is_identified_by, P72_has_language, SEARCHLABEL, UILABEL]

/-- `authorprops` of `infer_works`. -/
def authorprops : List Node :=
  [S141_composed_by, S142_written_by, S143_translated_by, S144_edited_by,
   S146_performed_by, S147_directed_by]

/-- Lookup in `dict(propslist)` built from a `(p, o)` pair list: Python
keeps the last occurrence of a duplicated key. -/
def dictLookup (l : List (Node × Node)) (k : Node) : Option Node :=
  (l.reverse.find? (fun q => decide (q.1 = k))).map (fun q => q.2)

/-- Python `s.replace(old, new, 1)`: replace the first occurrence. -/
def replaceFirst (pat repl : List Char) : List Char → List Char
  | [] => []
  | c :: rest =>
    if pat.isPrefixOf (c :: rest) then repl ++ (c :: rest).drop pat.length
    else c :: replaceFirst pat repl rest

/-- The mutable state of `infer_works`: the input graph (read, and by the
source never written), the result graph `g`, and the module-level allocator
dictionary. -/
structure WorksState where
  input : Graph
  out : Graph
  alloc : AllocState
deriving DecidableEq

/-- A default state (used only to project concrete run results). -/
def worksDefault : WorksState := ⟨make_base_graph, make_base_graph, []⟩

/-- The triples the `infer_works` body adds for one root Expression, in
source order (lines 592-614): `f2_label`, `copyvals`, the author pairs of
the root's F28 creation event, the `(derivative, its F28)` pairs and the
order-label digits are supplied by `work_triples` below, which also models
the `KeyError` on a missing `propsdict` key and rdflib's assertion failure
when a derivative has no `R17i_was_created_by` creation event
(`d_f28 is None`) with `none`: Python aborts the whole run there. -/
def work_triple_list (exp f2_label : Node) (copyvals : List Node)
    (authorPairs dpairs : List (Node × Node)) (ordchars : Node) : List Triple :=
  let f2_id := get_id_from_uri exp
  let f1_id := replaceFirst (("F2_").toList) (("F1_").toList) f2_id
  let f1_label := replaceFirst (("F2").toList) (("F1").toList) f2_label
  let f27_id := replaceFirst (("F2_").toList) (("F27_").toList) f2_id
  let f27_label := replaceFirst (("F2").toList) (("F27").toList) f2_label
  let f28_id := replaceFirst (("F2_").toList) (("F28_").toList) f2_id
  [(LKG f1_id, RDF_type, F1_Work),
   (LKG f1_id, RDFS_label, f1_label)]
  ++ (copyprops.zip copyvals).map (fun pv => (LKG f1_id, pv.1, pv.2))
  ++ [(LKG f1_id, ORDERLABEL, lit ordchars),
      (LKG f1_id, R3_is_realised_in, LKG f2_id),
      (LKG f2_id, R3i_realises, LKG f1_id),
      (LKG f28_id, R19_created_a_realisation_of, LKG f1_id),
      (LKG f1_id, R19i_was_realised_through, LKG f28_id),
      (LKG f27_id, RDF_type, F27_Work_Creation),
      (LKG f27_id, RDFS_label, f27_label),
      (LKG f27_id, R16_created, LKG f1_id),
      (LKG f1_id, R16i_was_created_by, LKG f27_id)]
  ++ authorPairs.map (fun pv => (LKG f27_id, pv.1, pv.2))
  ++ dpairs.flatMap (fun dp =>
       [(LKG f1_id, R3_is_realised_in, dp.1),
        (dp.1, R3i_realises, LKG f1_id),
        (dp.2, R19_created_a_realisation_of, LKG f1_id),
        (LKG f1_id, R19i_was_realised_through, dp.2)])

def work_triples (graph : Graph) (exp : Node) (a : AllocState) :
    Option (List Triple × AllocState) :=
  let propslist := graph.predicate_objects exp
  match dictLookup propslist RDFS_label with
  | none => none
  | some f2_label =>
    match copyprops.mapM (fun p => dictLookup propslist p) with
    | none => none
    | some copyvals =>
      match (derivPathSubjects graph exp).mapM
          (fun d => (graph.value d R17i_was_created_by).map (fun f28 => (d, f28))) with
      | none => none
      | some dpairs =>
        let f28_id := replaceFirst (("F2_").toList) (("F28_").toList) (get_id_from_uri exp)
        let oid := make_autoinc_id (("F1").toList) a
        some (work_triple_list exp f2_label copyvals
            ((graph.predicate_objects (LKG f28_id)).filter
              (fun pv => decide (pv.1 ∈ authorprops)))
            dpairs (after_last_underscore oid.1),
          oid.2)

/-- Predicate satisfied by every triple `infer_works` emits: never a
derivative-type edge, never a skip marker, and the only `rdf:type` triples
type the new `F1_Work` and `F27_Work_Creation` entities. -/
def OutOk (t : Triple) : Prop :=
  (t.2.1 = RDF_type → t.2.2 = F1_Work ∨ t.2.2 = F27_Work_Creation) ∧
  t.2.1 ∉ derivPreds ∧ t.2.1 ≠ SKIP

/-- One iteration of the `for exp in graph.subjects(RDF.type, F2_Expression)`
loop of `infer_works`: skip when the Expression has derivative sources,
already realises a Work, or carries the transient skip marker; otherwise
add the Work cluster to the result graph. -/
def infer_works_step (st : WorksState) (exp : Node) : Option WorksState :=
  if derivPathObjects st.input exp ≠ [] then some st
  else if (st.input.value exp R3i_realises).isSome then some st
  else if (st.input.triples.filter (fun t => decide (t.1 = exp ∧ t.2.1 = SKIP))) ≠ [] then
    some st
  else
    match work_triples st.input exp st.alloc with
    | none => none
    | some (ts, a2) => some ⟨st.input, ts.foldl Graph.add st.out, a2⟩

/-- `infer_works(graph)`: returns the freshly built graph of inferred Works
(.out), threading the untouched input graph and the allocator state. -/
def infer_works (graph : Graph) (a : AllocState) : Option WorksState :=
  List.foldlM infer_works_step ⟨graph, make_base_graph, a⟩
    (graph.subjects RDF_type F2_Expression)

/-! ## Derivative Inference Engine: `infer_derivatives` / `_infer_derivative`
(graphutils.py lines 715-757) -/

/-- `set(graph.objects(x, derivoptions, unique=True))`: the distinct direct
derivative-type targets of `x`. -/
def derivOptionObjects (g : Graph) (x : Node) : List Node :=
  (derivStep g x).dedup

/-- Lexicographic order on terms (Python `sorted` over URIRef strings). -/
def nodeLe : Node → Node → Bool
  | [], _ => true
  | _ :: _, [] => false
  | a :: as, b :: bs => if a = b then nodeLe as bs else decide (a < b)

def insertSorted (x : Node) : List Node → List Node
  | [] => [x]
  | y :: ys => if nodeLe x y then x :: y :: ys else y :: insertSorted x ys

/-- `sorted(...)` for a list of terms. -/
def sortNodes (l : List Node) : List Node := l.foldr insertSorted []

/-- `set.intersection(*sets)` (the argument list is non-empty at the call
site: one entry per child). -/
def interAll : List (List Node) → List Node
  | [] => []
  | x :: xs => xs.foldl List.inter x

/-- `_infer_derivative(graph, sender_node)` with explicit fuel for the
recursion over `R5_has_component` children (the Python recursion; on a
cyclic component graph Python raises `RecursionError`, modelled by fuel
exhaustion returning no result).  The graph is threaded because the
function adds the inferred triples in place. -/
def _infer_derivative : Nat → Graph → Node → Graph × Option (List Node × Node)
  | 0, g, _ => (g, none)
  | fuel + 1, g, sender =>
    let children := g.objects sender R5_has_component
    if children = [] then
      match derivOptionObjects g sender with
      | [refnode] => (g, some ((g.predicates sender refnode).dedup, refnode))
      | _ => (g, none)
    else
      let acc := children.foldl
        (fun (acc : Graph × List (Option (List Node × Node))) child =>
          let r := _infer_derivative fuel acc.1 child
          (r.1, acc.2 ++ [r.2]))
        (g, [])
      let g2 := acc.1
      let derivinfo := acc.2
      if derivinfo.all Option.isSome then
        let infos := derivinfo.filterMap id
        if ((infos.map (fun i => i.2)).dedup).length = 1 then
          let outputprops := interAll (infos.map (fun i => i.1))
          match infos.head? with
          | none => (g2, none)
          | some info0 =>
            match g2.value info0.2 R5i_is_component_of with
            | some ref =>
              ((sortNodes outputprops).foldl (fun gg p => gg.add (sender, p, ref)) g2,
               some (outputprops, ref))
            | none => (g2, none)
        else (g2, none)
      else (g2, none)

/-- Recursion-depth fuel for one root: an acyclic `R5_has_component` chain
cannot be longer than the number of triples. -/
def derivFuel (g : Graph) : Nat := g.triples.length + 1

/-- `infer_derivatives(graph)`: run `_infer_derivative` on every root of
the component hierarchy (subjects of `R5_has_component`, one occurrence per
triple, without an `R5i_is_component_of` parent). -/
def infer_derivatives (g : Graph) : Graph :=
  ((g.triples.filter (fun t => decide (t.2.1 = R5_has_component))).map (fun t => t.1)).foldl
    (fun gg s =>
      if (gg.value s R5i_is_component_of).isSome then gg
      else (_infer_derivative (derivFuel gg) gg s).1)
    g

/-- Decidable statement that every derivative-type triple of the graph is
asymmetric (its reverse under the same predicate is absent). -/
def derivAsymmetric (g : Graph) : Prop :=
  ∀ t ∈ g.triples, t.2.1 ∈ derivPreds → (t.2.2, t.2.1, t.1) ∉ g.triples

/-- Decidable statement that no derivative-type triple is a self-loop. -/
def derivIrreflexive (g : Graph) : Prop :=
  ∀ t ∈ g.triples, t.2.1 ∈ derivPreds → t.1 ≠ t.2.2

/-- Decidable statement that the component hierarchy is stored with both
inverse directions (`add_nonfic` always adds `R5_has_component` and
`R5i_is_component_of` in pairs). -/
def hierarchyPaired (g : Graph) : Prop :=
  (∀ t ∈ g.triples, t.2.1 = R5i_is_component_of →
      (t.2.2, R5_has_component, t.1) ∈ g.triples) ∧
  (∀ t ∈ g.triples, t.2.1 = R5_has_component →
      (t.2.2, R5i_is_component_of, t.1) ∈ g.triples)

instance (g : Graph) : Decidable (derivAsymmetric g) :=
  inferInstanceAs
    (Decidable (∀ t ∈ g.triples, t.2.1 ∈ derivPreds → (t.2.2, t.2.1, t.1) ∉ g.triples))

instance (g : Graph) : Decidable (derivIrreflexive g) :=
  inferInstanceAs (Decidable (∀ t ∈ g.triples, t.2.1 ∈ derivPreds → t.1 ≠ t.2.2))

instance (g : Graph) : Decidable (hierarchyPaired g) :=
  inferInstanceAs (Decidable (_ ∧ _))

/-! ## Concrete scenario graphs -/

/-- The composite scenario of the spec: `A = {a1, a2}`, `B = {b1, b2}`,
`a1 is-translation-of b1`, `a2 is-translation-of b2` (component pairs with
distinct targets). -/
def derivCexGraph : Graph :=
  ⟨[(LKG (("F2_A").toList), R5_has_component, LKG (("F2_a1").toList)),
    (LKG (("F2_a1").toList), R5i_is_component_of, LKG (("F2_A").toList)),
    (LKG (("F2_A").toList), R5_has_component, LKG (("F2_a2").toList)),
    (LKG (("F2_a2").toList), R5i_is_component_of, LKG (("F2_A").toList)),
    (LKG (("F2_B").toList), R5_has_component, LKG (("F2_b1").toList)),
    (LKG (("F2_b1").toList), R5i_is_component_of, LKG (("F2_B").toList)),
    (LKG (("F2_B").toList), R5_has_component, LKG (("F2_b2").toList)),
    (LKG (("F2_b2").toList), R5i_is_component_of, LKG (("F2_B").toList)),
    (LKG (("F2_a1").toList), S761_is_translation_of, LKG (("F2_b1").toList)),
    (LKG (("F2_a2").toList), S761_is_translation_of, LKG (("F2_b2").toList))]⟩

/-- A graph whose derivative relations are asymmetric and irreflexive, with
inverse-paired hierarchy, on which the engine asserts `(A, S761, B)` while
`(B, S761, A)` is already present: `A = {a1, a2}` with both components
translations of `t`, `t` a component of `B`, and `B is-translation-of A` in
the input. -/
def asymCexGraph : Graph :=
  ⟨[(LKG (("F2_A").toList), R5_has_component, LKG (("F2_a1").toList)),
    (LKG (("F2_a1").toList), R5i_is_component_of, LKG (("F2_A").toList)),
    (LKG (("F2_A").toList), R5_has_component, LKG (("F2_a2").toList)),
    (LKG (("F2_a2").toList), R5i_is_component_of, LKG (("F2_A").toList)),
    (LKG (("F2_B").toList), R5_has_component, LKG (("F2_t").toList)),
    (LKG (("F2_t").toList), R5i_is_component_of, LKG (("F2_B").toList)),
    (LKG (("F2_a1").toList), S761_is_translation_of, LKG (("F2_t").toList)),
    (LKG (("F2_a2").toList), S761_is_translation_of, LKG (("F2_t").toList)),
    (LKG (("F2_B").toList), S761_is_translation_of, LKG (("F2_A").toList))]⟩

/-- Two root Expressions `r1`, `r2` (with the metadata `infer_works` copies)
and one Expression `d` that is a derivative of both. -/
def worksCexGraph : Graph :=
  ⟨[(LKG (("F2_r1").toList), RDF_type, F2_Expression),
    (LKG (("F2_r1").toList), RDFS_label, lit (("F2 r1").toList)),
    (LKG (("F2_r1").toList), P102_has_title, LKG (("E35_1").toList)),
    (LKG (("F2_r1").toList), P1_is_identified_by, LKG (("E42_1").toList)),
    (LKG (("F2_r1").toList), P72_has_language, LKG (("E56_pol").toList)),
    (LKG (("F2_r1").toList), SEARCHLABEL, lit (("r1").toList)),
    (LKG (("F2_r1").toList), UILABEL, lit (("r1").toList)),
    (LKG (("F2_r2").toList), RDF_type, F2_Expression),
    (LKG (("F2_r2").toList), RDFS_label, lit (("F2 r2").toList)),
    (LKG (("F2_r2").toList), P102_has_title, LKG (("E35_2").toList)),
    (LKG (("F2_r2").toList), P1_is_identified_by, LKG (("E42_2").toList)),
    (LKG (("F2_r2").toList), P72_has_language, LKG (("E56_pol").toList)),
    (LKG (("F2_r2").toList), SEARCHLABEL, lit (("r2").toList)),
    (LKG (("F2_r2").toList), UILABEL, lit (("r2").toList)),
    (LKG (("F2_d").toList), RDF_type, F2_Expression),
    (LKG (("F2_d").toList), R17i_was_created_by, LKG (("F28_d").toList)),
    (LKG (("F2_d").toList), R76_is_derivative_of, LKG (("F2_r1").toList)),
    (LKG (("F2_d").toList), R76_is_derivative_of, LKG (("F2_r2").toList))]⟩

/-- A persisted graph containing person IDs `P0..P7` (subjects typed
`E21_Person`, as written by `add_people`: `uri = "E21_" + yid`). -/
def personResumeGraph : Graph :=
  ⟨[(LKG ("E21_P0").toList, RDF_type, E21_Person),
    (LKG ("E21_P1").toList, RDF_type, E21_Person),
    (LKG ("E21_P2").toList, RDF_type, E21_Person),
    (LKG ("E21_P3").toList, RDF_type, E21_Person),
    (LKG ("E21_P4").toList, RDF_type, E21_Person),
    (LKG ("E21_P5").toList, RDF_type, E21_Person),
    (LKG ("E21_P6").toList, RDF_type, E21_Person),
    (LKG ("E21_P7").toList, RDF_type, E21_Person)]⟩

/-! ## Reference Resolver: `normalize_ref` (utils.py lines 93-160)

Python string primitives on `List Char`. -/

/-- `str.split(sep)` for a non-empty separator, with fuel (`fuel ≥ s.length`
always holds at call sites, so the fuel case is unreachable). -/
def splitSepAux (sep : List Char) : Nat → List Char → List Char → List (List Char)
  | _, [], acc => [acc.reverse]
  | 0, s, acc => [acc.reverse ++ s]
  | fuel + 1, c :: rest, acc =>
    if sep.isPrefixOf (c :: rest) then
      acc.reverse :: splitSepAux sep fuel (rest.drop (sep.length - 1)) []
    else
      splitSepAux sep fuel rest (c :: acc)

/-- Python `s.split(sep)` (non-empty `sep`). -/
def pySplit (sep : List Char) (s : List Char) : List (List Char) :=
  splitSepAux sep s.length s []

/-- `sref.strip() == ''`: the token is empty or whitespace-only. -/
def isBlank (s : List Char) : Bool := s.all (fun c => c.isWhitespace)

/-- `s.strip(":")`: remove leading and trailing colons. -/
def stripColons (s : List Char) : List Char :=
  ((s.dropWhile (fun c => c = ':')).reverse.dropWhile (fun c => c = ':')).reverse

/-- `re.match(r"\d+", s)`: the leading digit run, `None` if there is none. -/
def matchDigits (s : List Char) : Option (List Char) :=
  match s.takeWhile Char.isDigit with
  | [] => none
  | ds => some ds

/-- `re.match(r"[A-Za-z]+", s)`: the leading letter run, `None` if none. -/
def matchLetters (s : List Char) : Option (List Char) :=
  match s.takeWhile Char.isAlpha with
  | [] => none
  | ls => some ls

/-- Numeric value of a digit run (`int(...)` on a matched `\d+` group). -/
def digitsToNat (s : List Char) : Nat :=
  s.foldl (fun acc c => 10 * acc + (c.toNat - 48)) 0

/-- `s.rsplit(".", 1)`: `[before, after]` around the last dot, else `[s]`. -/
def rsplitDot (s : List Char) : List (List Char) :=
  if '.' ∈ s then
    [s.take (s.length - (s.reverse.takeWhile (fun c => c ≠ '.')).length - 1),
     (s.reverse.takeWhile (fun c => c ≠ '.')).reverse]
  else [s]

/-- The range / semicolon / plain expansion applied to one fully prefixed
sub-token (`normalize_ref` body, utils.py lines 135-159).  `none` models the
`ValueError` of `sref.split(".", 1)` unpacking when a semicolon token has no
dot. -/
def expandSref (sref : List Char) : Option (List (List Char)) :=
  let parts := pySplit ['÷'] sref
  if 1 < parts.length then
    let idfirst := rsplitDot (parts.head?.getD [])
    let idlast := rsplitDot (parts.getLast?.getD [])
    let lastid0 := idlast.getLast?.getD []
    let semis := pySplit [';'] lastid0
    let lastid := if ';' ∈ lastid0 then semis.head?.getD [] else lastid0
    let extra :=
      if ';' ∈ lastid0 then
        semis.tail.filterMap
          (fun p => (matchDigits p).map
            (fun d => idfirst.head?.getD [] ++ '.' :: d))
      else []
    match matchDigits (idfirst.getLast?.getD []), matchDigits lastid with
    | some nf, some nl =>
      some (extra ++
        (List.range' (digitsToNat nf) (digitsToNat nl + 1 - digitsToNat nf)).map
          (fun x => idfirst.head?.getD [] ++ '.' :: natChars x))
    | _, _ => some extra
  else if ';' ∈ sref then
    if '.' ∈ sref then
      let mainid := sref.takeWhile (fun c => c ≠ '.')
      let subids := sref.drop (mainid.length + 1)
      some ((pySplit [';'] subids).map (fun subid => mainid ++ '.' :: subid))
    else none
  else
    if sref.getLast? = some '?' then some [] else some [sref]

/-- The per-sub-token step of `normalize_ref` (prefix resolution, then
expansion; utils.py lines 118-159).  `none` models the `AttributeError` of
`re.match(r"[A-Za-z]+", sref).group()` when the token starts with neither a
digit nor a letter.  An unrecognized letter prefix is rewritten into the
"other" namespace and then dropped by the `continue` (nothing is emitted). -/
def processSref (sref0 prefix_default prefix_nf : List Char)
    (lang_prefixes : List (List Char)) (prefix_other : List Char) :
    Option (List (List Char)) :=
  if isBlank sref0 then some []
  else if sref0.head?.elim false Char.isDigit then
    expandSref
      ((if prefix_default ∈ lang_prefixes then prefix_nf ++ prefix_default
        else prefix_other ++ prefix_default) ++ sref0)
  else
    match matchLetters sref0 with
    | none => none
    | some pfx =>
      if pfx ∉ lang_prefixes then some []
      else expandSref (prefix_nf ++ pfx ++ stripColons (sref0.drop pfx.length))

/-- `normalize_ref(sourceref, prefix_default, prefix_nf, lang_prefixes,
prefix_other)`: split on `", "` then `"+"`, process every sub-token, join
the collected references with a space. -/
def normalize_ref (sourceref prefix_default prefix_nf : List Char)
    (lang_prefixes : List (List Char)) (prefix_other : List Char) :
    Option (List Char) :=
  match ((pySplit [',', ' '] sourceref).flatMap (pySplit ['+'])).mapM
      (fun sref => processSref sref prefix_default prefix_nf lang_prefixes prefix_other) with
  | none => none
  | some chunks => some (List.intercalate [' '] chunks.flatten)

/-! ## Hierarchy Propagator: `propagate_through_prop` (graphutils.py lines 627-644)

```python
linked = list(graph.objects(subject=src_node, predicate=hierarchy_prop))
while linked:
    node = linked.pop()
    obj = node
    if neighbor_prop:
        obj = graph.value(node, neighbor_prop)
    if (obj, predicate, object) in graph:
        continue
    graph.add((obj, predicate, object))
    propagate_through_prop(graph, node, hierarchy_prop, predicate, object, neighbor_prop)
```

`linked.pop()` pops from the end, so the snapshot worklist is processed in
reverse order; each unmarked node is marked and its subtree recursed into
before the loop continues on the mutated graph.  The recursion is embedded
with fuel (one unit per nesting level); the termination theorem shows the
result is fuel-independent once the fuel exceeds the number of unmarked
hierarchy targets.  When `graph.value(node, neighbor_prop)` is `None`,
rdflib's wildcard `in` / `add` behaviour aborts or skips; the embedding
skips (the verified claims use `neighbor_prop = None`, where this branch is
unreachable). -/

/-- One iteration of the worklist loop, parametrized by the recursive call. -/
def propStep (rec : Graph → Node → Graph) (pred val : Node) (nb : Option Node)
    (gg : Graph) (n : Node) : Graph :=
  match (match nb with | none => some n | some np => gg.value n np) with
  | none => gg
  | some oo =>
    if (oo, pred, val) ∈ gg.triples then gg
    else rec (gg.add (oo, pred, val)) n

/-- `propagate_through_prop(graph, src_node, hierarchy_prop, predicate,
object, neighbor_prop)` with recursion fuel. -/
def propagate_through_prop :
    Nat → Graph → Node → Node → Node → Node → Option Node → Graph
  | 0, g, _, _, _, _, _ => g
  | fuel + 1, g, src, hier, pred, val, nb =>
    ((g.objects src hier).reverse).foldl
      (propStep (fun gg n => propagate_through_prop fuel gg n hier pred val nb)
        pred val nb) g

/-- Reachability from `x` to `y` in one or more `hier`-hops. -/
inductive HierReach (g : Graph) (hier : Node) : Node → Node → Prop
  | step : ∀ {x y}, (x, hier, y) ∈ g.triples → HierReach g hier x y
  | tail : ∀ {x y z}, (x, hier, y) ∈ g.triples → HierReach g hier y z →
      HierReach g hier x z

/-- All distinct targets of `hier` edges (the nodes the propagator can mark). -/
def hierTargets (g : Graph) (hier : Node) : List Node :=
  ((g.triples.filter (fun t => decide (t.2.1 = hier))).map (fun t => t.2.2)).dedup

/-- Number of hierarchy targets not yet carrying the `(·, pred, val)` mark:
the measure that bounds the recursion depth of the propagator. -/
def unmarkedCount (g : Graph) (hier pred val : Node) : Nat :=
  ((hierTargets g hier).filter (fun n => decide ((n, pred, val) ∉ g.triples))).length

/-- Marks-only extension: `g'` is `g` plus some `(·, pred, val)` triples.
Every graph produced by the propagator extends its input this way. -/
def MarksExt (pred val : Node) (g g' : Graph) : Prop :=
  ∃ ex, g'.triples = g.triples ++ ex ∧ ∀ t ∈ ex, ∃ n, t = (n, pred, val)

/-- A complete binary tree of depth 2 under `R5_has_component`:
root `s`, children `c1`, `c2`, grandchildren `c11`, `c12`, `c21`, `c22`. -/
def propCexGraph : Graph :=
  ⟨[(LKG (("F2_s").toList), R5_has_component, LKG (("F2_c1").toList)),
    (LKG (("F2_s").toList), R5_has_component, LKG (("F2_c2").toList)),
    (LKG (("F2_c1").toList), R5_has_component, LKG (("F2_c11").toList)),
    (LKG (("F2_c1").toList), R5_has_component, LKG (("F2_c12").toList)),
    (LKG (("F2_c2").toList), R5_has_component, LKG (("F2_c21").toList)),
    (LKG (("F2_c2").toList), R5_has_component, LKG (("F2_c22").toList))]⟩

/-- Hygiene of the input store: any two nodes linked by a derivative-type
predicate are linked only by derivative-type predicates (so the predicate
set a leaf reports for its derivative target contains no hierarchy or
metadata predicates).  Stated over pairs of stored triples, hence
decidable. -/
def derivOnlyLinks (g : Graph) : Prop :=
  ∀ t ∈ g.triples, ∀ u ∈ g.triples,
    t.2.1 ∈ derivPreds → u.1 = t.1 → u.2.2 = t.2.2 → u.2.1 ∈ derivPreds

instance (g : Graph) : Decidable (derivOnlyLinks g) :=
  inferInstanceAs
    (Decidable (∀ t ∈ g.triples, ∀ u ∈ g.triples,
      t.2.1 ∈ derivPreds → u.1 = t.1 → u.2.2 = t.2.2 → u.2.1 ∈ derivPreds))

/-- `g2` is `g` plus engine-asserted triples only: every extra triple is a
derivative-type relation whose subject is a composite node of `g` and whose
endpoints differ. -/
def DerivAsserted (g g2 : Graph) : Prop :=
  ∃ ex, g2.triples = g.triples ++ ex ∧
    ∀ t ∈ ex, t.2.1 ∈ derivPreds ∧ g.objects t.1 R5_has_component ≠ [] ∧
      t.1 ≠ t.2.2

/-- A clean two-composite input: `W = {w1}`, `V = {v1}` with paired
hierarchy edges and `w1 is-translation-of v1`; the engine asserts exactly
`(W, S761_is_translation_of, V)`. -/
def derivWitGraph : Graph :=
  ⟨[(LKG (("F2_W").toList), R5_has_component, LKG (("F2_w1").toList)),
    (LKG (("F2_w1").toList), R5i_is_component_of, LKG (("F2_W").toList)),
    (LKG (("F2_V").toList), R5_has_component, LKG (("F2_v1").toList)),
    (LKG (("F2_v1").toList), R5i_is_component_of, LKG (("F2_V").toList)),
    (LKG (("F2_w1").toList), S761_is_translation_of, LKG (("F2_v1").toList))]⟩

/-! ### Allocator lemmas -/

theorem alookup_aset (s : AllocState) (p : Node) (n : Nat) :
    alookup (aset s p n) p = some n := by
  induction s with
  | nil => simp [aset, alookup, List.find?]
  | cons q rest ih =>
    by_cases h : q.1 = p
    · simp [aset, h, alookup, List.find?]
    · simp only [aset, if_neg h]
      simpa [alookup, List.find?, h] using ih

theorem digitChar_inj_lt :
    ∀ x, x < 10 → ∀ y, y < 10 → Nat.digitChar x = Nat.digitChar y → x = y := by
  decide

theorem map_digitChar_inj :
    ∀ (l1 l2 : List Nat), (∀ x ∈ l1, x < 10) → (∀ x ∈ l2, x < 10) →
      l1.map Nat.digitChar = l2.map Nat.digitChar → l1 = l2 := by
  intro l1
  induction l1 with
  | nil =>
    intro l2 _ _ h
    cases l2 with
    | nil => rfl
    | cons y ys => simp at h
  | cons x xs ih =>
    intro l2 h1 h2 h
    cases l2 with
    | nil => simp at h
    | cons y ys =>
      simp only [List.map_cons, List.cons.injEq] at h
      have hx : x = y :=
        digitChar_inj_lt x (h1 x (by simp)) y (h2 y (by simp)) h.1
      have hxs : xs = ys :=
        ih ys (fun z hz => h1 z (by simp [hz])) (fun z hz => h2 z (by simp [hz])) h.2
      rw [hx, hxs]

theorem natCharsAux_eq_digits :
    ∀ (fuel n : Nat), n ≤ fuel →
      natCharsAux fuel n = ((Nat.digits 10 n).map Nat.digitChar).reverse := by
  intro fuel
  induction fuel with
  | zero =>
    intro n hn
    interval_cases n
    simp [natCharsAux]
  | succ f ih =>
    intro n hn
    cases n with
    | zero => simp [natCharsAux]
    | succ m =>
      have hpos : 0 < m + 1 := Nat.succ_pos m
      have hdig : Nat.digits 10 (m + 1) =
          (m + 1) % 10 :: Nat.digits 10 ((m + 1) / 10) :=
        Nat.digits_def' (by norm_num) hpos
      have hdiv : (m + 1) / 10 ≤ f := by
        have : (m + 1) / 10 < m + 1 := Nat.div_lt_self hpos (by norm_num)
        omega
      show natCharsAux f ((m + 1) / 10) ++ [Nat.digitChar ((m + 1) % 10)] = _
      rw [ih _ hdiv, hdig]
      simp

theorem natChars_eq_digits (n : Nat) :
    natChars n = if n = 0 then ['0']
      else ((Nat.digits 10 n).map Nat.digitChar).reverse := by
  unfold natChars
  by_cases h : n = 0
  · simp [h]
  · rw [if_neg h, if_neg h, natCharsAux_eq_digits n n le_rfl]

theorem natChars_injective : Function.Injective natChars := by
  intro a b hab
  rw [natChars_eq_digits, natChars_eq_digits] at hab
  by_cases ha : a = 0 <;> by_cases hb : b = 0
  · omega
  · exfalso
    rw [if_pos ha, if_neg hb] at hab
    have hmap : (Nat.digits 10 b).map Nat.digitChar = ['0'] := by
      have := congrArg List.reverse hab
      simpa using this.symm
    have hdig : Nat.digits 10 b = [0] := by
      have h0 : ([0] : List Nat).map Nat.digitChar = ['0'] := by
        simp [Nat.digitChar]
      refine map_digitChar_inj _ [0] ?_ ?_ (hmap.trans h0.symm)
      · exact fun x hx => Nat.digits_lt_base (by norm_num) hx
      · intro x hx; simp at hx; omega
    have : b = 0 := by
      have := Nat.ofDigits_digits 10 b
      rw [hdig] at this
      simpa [Nat.ofDigits] using this.symm
    exact hb this
  · exfalso
    rw [if_neg ha, if_pos hb] at hab
    have hmap : (Nat.digits 10 a).map Nat.digitChar = ['0'] := by
      have := congrArg List.reverse hab
      simpa using this
    have hdig : Nat.digits 10 a = [0] := by
      have h0 : ([0] : List Nat).map Nat.digitChar = ['0'] := by
        simp [Nat.digitChar]
      refine map_digitChar_inj _ [0] ?_ ?_ (hmap.trans h0.symm)
      · exact fun x hx => Nat.digits_lt_base (by norm_num) hx
      · intro x hx; simp at hx; omega
    have : a = 0 := by
      have := Nat.ofDigits_digits 10 a
      rw [hdig] at this
      simpa [Nat.ofDigits] using this.symm
    exact ha this
  · rw [if_neg ha, if_neg hb] at hab
    have h2 : (Nat.digits 10 a).map Nat.digitChar = (Nat.digits 10 b).map Nat.digitChar :=
      List.reverse_injective hab
    have hdig : Nat.digits 10 a = Nat.digits 10 b := by
      refine map_digitChar_inj _ _ ?_ ?_ h2
      · exact fun x hx => Nat.digits_lt_base (by norm_num) hx
      · exact fun x hx => Nat.digits_lt_base (by norm_num) hx
    calc a = Nat.ofDigits 10 (Nat.digits 10 a) := (Nat.ofDigits_digits 10 a).symm
    _ = Nat.ofDigits 10 (Nat.digits 10 b) := by rw [hdig]
    _ = b := Nat.ofDigits_digits 10 b

/-! ### Removal of skip markers -/

theorem mem_foldl_remove (L : List Triple) :
    ∀ (g : Graph) (t : Triple),
      t ∈ (L.foldl Graph.remove g).triples → t ∈ g.triples ∧ t ∉ L := by
  induction L with
  | nil =>
    intro g t h
    exact ⟨h, by simp⟩
  | cons x xs ih =>
    intro g t h
    simp only [List.foldl_cons] at h
    obtain ⟨hg, hxs⟩ := ih _ t h
    simp only [Graph.remove, List.mem_filter, decide_eq_true_eq] at hg
    simp only [List.mem_cons, not_or]
    exact ⟨hg.1, hg.2, hxs⟩

/-- C9: after the skip-marker removal step, the graph contains no triple
whose predicate is the transient `LKG["SKIP"]` marker: `remove_tempflags`
strips every such triple. -/
theorem spec_skip_markers_stripped (g : Graph) (s o : Node) :
    ¬ (remove_tempflags g).has (s, SKIP, o) := by
  intro h
  unfold remove_tempflags at h
  obtain ⟨hg, hnot⟩ := mem_foldl_remove _ _ _ h
  apply hnot
  simp only [List.mem_filter, decide_eq_true_eq]
  simp [hg]

/-- C5: the allocator's per-prefix counter starts at 0 and increases by
exactly one per allocation (so IDs are never reused: consecutive IDs for a
prefix differ), and resuming from a persisted graph with person IDs
`P0..P7` sets the `E21` counter to `max + 1 = 8`, making the first newly
allocated person ID carry numeric suffix 8 (`E21_8`). -/
theorem spec_allocator_counters :
    (∀ (s : AllocState) (p : Node),
        (make_autoinc_id p s).1 = p ++ '_' :: natChars ((alookup s p).getD 0) ∧
        alookup (make_autoinc_id p s).2 p = some ((alookup s p).getD 0 + 1)) ∧
    (∀ (s : AllocState) (p : Node),
        (make_autoinc_id p s).1 ≠ (make_autoinc_id p (make_autoinc_id p s).2).1) ∧
    import_lkg_resume_class personResumeGraph E21_Person [] =
      some [(("E21").toList, 8)] ∧
    (make_autoinc_id (("E21").toList) [(("E21").toList, 8)]).1 = ("E21_8").toList := by
  refine ⟨?_, ?_, ?_, ?_⟩
  · intro s p
    exact ⟨rfl, by simp [make_autoinc_id, alookup_aset]⟩
  · intro s p heq
    have h2 : (make_autoinc_id p (make_autoinc_id p s).2).1
        = p ++ '_' :: natChars ((alookup s p).getD 0 + 1) := by
      simp [make_autoinc_id, alookup_aset]
    have h1 : (make_autoinc_id p s).1
        = p ++ '_' :: natChars ((alookup s p).getD 0) := rfl
    rw [h1, h2] at heq
    have hc : natChars ((alookup s p).getD 0) =
        natChars ((alookup s p).getD 0 + 1) := by
      have := List.append_inj_right heq (by rfl)
      exact (List.cons.injEq _ _ _ _).mp this |>.2
    exact absurd (natChars_injective hc) (by omega)
  · decide
  · decide

/-! ### Reference-resolver lemmas -/

theorem splitSepAux_no_sep (c0 : Char) (cs : List Char) :
    ∀ (s : List Char) (fuel : Nat) (acc : List Char), s.length ≤ fuel → c0 ∉ s →
      splitSepAux (c0 :: cs) fuel s acc = [acc.reverse ++ s] := by
  intro s
  induction s with
  | nil =>
    intro fuel acc _ _
    cases fuel <;> simp [splitSepAux]
  | cons c rest ih =>
    intro fuel acc hf hc
    cases fuel with
    | zero => simp at hf
    | succ f =>
      have hne : ¬(c0 = c) := by
        intro h
        exact hc (by simp [h])
      have hpre : (c0 :: cs).isPrefixOf (c :: rest) = false := by
        simp [List.isPrefixOf, hne]
      show (if (c0 :: cs).isPrefixOf (c :: rest) then _ else _) = _
      rw [hpre]
      simp only [Bool.false_eq_true, if_false]
      rw [ih f (c :: acc) (by simpa using hf) (fun h => hc (by simp [h]))]
      simp

theorem pySplit_no_sep (c0 : Char) (cs s : List Char) (h : c0 ∉ s) :
    pySplit (c0 :: cs) s = [s] := by
  unfold pySplit
  rw [splitSepAux_no_sep c0 cs s s.length [] le_rfl h]
  simp

theorem isBlank_false_of_mem {s : List Char} {c : Char} (hc : c ∈ s)
    (hw : c.isWhitespace = false) : isBlank s = false := by
  unfold isBlank
  simp only [List.all_eq_false]
  exact ⟨c, hc, by simp [hw]⟩

theorem isAlpha_isDigit_false (c : Char) (h : c.isAlpha = true) : c.isDigit = false := by
  simp only [Char.isAlpha, Char.isUpper, Char.isLower, Char.isDigit, Bool.or_eq_true,
    Bool.and_eq_true, decide_eq_true_eq, ge_iff_le] at h ⊢
  have e1 : ((65 : UInt32)).toBitVec.toNat = 65 := rfl
  have e2 : ((90 : UInt32)).toBitVec.toNat = 90 := rfl
  have e3 : ((97 : UInt32)).toBitVec.toNat = 97 := rfl
  have e4 : ((122 : UInt32)).toBitVec.toNat = 122 := rfl
  have e5 : ((57 : UInt32)).toBitVec.toNat = 57 := rfl
  rcases h with ⟨h1, h2⟩ | ⟨h1, h2⟩ <;>
  · rw [Bool.and_eq_false_iff]
    right
    rw [decide_eq_false_iff_not]
    intro hle
    rw [UInt32.le_def, BitVec.le_def] at h1 h2 hle
    omega

theorem isAlpha_isWhitespace_false (c : Char) (h : c.isAlpha = true) :
    c.isWhitespace = false := by
  cases hc : c.isWhitespace
  · rfl
  · exfalso
    unfold Char.isWhitespace at hc
    simp only [Bool.or_eq_true, decide_eq_true_eq] at hc
    rcases hc with ((h1 | h1) | h1) | h1 <;> subst h1 <;> exact absurd h (by decide)

theorem mem_of_getLast?_eq {s : List Char} {a : Char} (h : s.getLast? = some a) :
    a ∈ s := by
  have hmem : a ∈ s.getLast? := h
  obtain ⟨hne, heq⟩ := List.mem_getLast?_eq_getLast hmem
  rw [heq]
  exact List.getLast_mem hne

theorem intercalate_singleton (x : List Char) : List.intercalate [' '] [x] = x := by
  simp [List.intercalate]

theorem expandSref_plain (sref : List Char) (h1 : '÷' ∉ sref) (h2 : ';' ∉ sref) :
    expandSref sref = if sref.getLast? = some '?' then some [] else some [sref] := by
  unfold expandSref
  rw [pySplit_no_sep '÷' [] sref h1]
  simp [h2]

theorem not_mem_append₂ {c : Char} {a b : List Char} (ha : c ∉ a) (hb : c ∉ b) :
    c ∉ a ++ b := fun h => (List.mem_append.mp h).elim ha hb

theorem normalize_ref_single (s prefix_default prefix_nf prefix_other : List Char)
    (lang_prefixes : List (List Char)) (hc : ',' ∉ s) (hp : '+' ∉ s) :
    normalize_ref s prefix_default prefix_nf lang_prefixes prefix_other =
      (processSref s prefix_default prefix_nf lang_prefixes prefix_other).map
        (List.intercalate [' ']) := by
  unfold normalize_ref
  rw [show ([',', ' '] : List Char) = ',' :: [' '] from rfl, pySplit_no_sep ',' [' '] s hc]
  simp only [List.flatMap_cons, List.flatMap_nil, List.append_nil]
  rw [show (['+'] : List Char) = '+' :: [] from rfl, pySplit_no_sep '+' [] s hp]
  cases hps : processSref s prefix_default prefix_nf lang_prefixes prefix_other with
  | none => simp [List.mapM, List.mapM.loop, hps]
  | some refs => simp [List.mapM, List.mapM.loop, hps]

/-! ### Claims C6, C7, C8 -/

/-- C6 counterexample: the claim "a sub-token carrying a trailing `?` is
excluded from the output for every sub-token shape" is false for semicolon
sub-lists: resolving `"44.1;2?"` emits the uncertain reference `nfpl44.2?`
(the `endswith("?")` test only guards the plain branch). -/
theorem normalize_ref_keeps_uncertain_in_semicolon_list :
    normalize_ref ("44.1;2?").toList ("pl").toList ("nf").toList
      [("pl").toList] ("ot").toList = some (("nfpl44.1 nfpl44.2?").toList) := by
  decide

/-- C6 (amended): a trailing `?` excludes a sub-token only in the plain
branch: for a digit-initial sub-token with no range marker `÷`, no
semicolon and no list separators, a trailing `?` makes the resolver emit
nothing; in particular resolving `"44.2?"` yields an empty reference list.
Range and semicolon sub-lists are not filtered. -/
theorem spec_uncertain_excluded_plain
    (s prefix_default prefix_nf prefix_other : List Char)
    (lang_prefixes : List (List Char))
    (hq : s.getLast? = some '?')
    (hd : s.head?.elim false Char.isDigit = true)
    (hc : ',' ∉ s) (hp : '+' ∉ s) (hr : '÷' ∉ s) (hs : ';' ∉ s)
    (hnf1 : '÷' ∉ prefix_nf ++ prefix_default) (hnf2 : ';' ∉ prefix_nf ++ prefix_default)
    (hot1 : '÷' ∉ prefix_other ++ prefix_default) (hot2 : ';' ∉ prefix_other ++ prefix_default) :
    normalize_ref s prefix_default prefix_nf lang_prefixes prefix_other = some [] := by
  have hne : s ≠ [] := by
    intro h
    rw [h] at hq
    simp at hq
  have hblank : isBlank s = false :=
    isBlank_false_of_mem (mem_of_getLast?_eq hq) (by decide)
  rw [normalize_ref_single s _ _ _ _ hc hp]
  have hproc : processSref s prefix_default prefix_nf lang_prefixes prefix_other
      = some [] := by
    unfold processSref
    rw [hblank]
    simp only [Bool.false_eq_true, if_false, hd, if_true]
    by_cases hmem : prefix_default ∈ lang_prefixes
    · rw [if_pos hmem]
      rw [expandSref_plain _ (not_mem_append₂ hnf1 hr) (not_mem_append₂ hnf2 hs)]
      rw [if_pos (by rw [List.getLast?_append_of_ne_nil _ hne]; exact hq)]
    · rw [if_neg hmem]
      rw [expandSref_plain _ (not_mem_append₂ hot1 hr) (not_mem_append₂ hot2 hs)]
      rw [if_pos (by rw [List.getLast?_append_of_ne_nil _ hne]; exact hq)]
  rw [hproc]
  simp [List.intercalate]

/-- Witness for the amended C6 theorem at the spec's own example `"44.2?"`. -/
theorem spec_uncertain_excluded_plain_witness :
    (("44.2?").toList.getLast? = some '?') ∧
    normalize_ref ("44.2?").toList ("pl").toList ("nf").toList
      [("pl").toList] ("ot").toList = some [] :=
  ⟨by decide,
   spec_uncertain_excluded_plain _ _ _ _ _ (by decide) (by decide) (by decide)
     (by decide) (by decide) (by decide) (by decide) (by decide) (by decide) (by decide)⟩

/-- C7 counterexample: the claim "a trailing relation-suffix character is
preserved on every ID produced by range expansion" is false: resolving
`"44.1÷3>"` yields `nfpl44.1 nfpl44.2 nfpl44.3` — the `>` suffix is dropped
from every expanded ID (the range branch rebuilds IDs from the matched
digit runs only; the source docstring itself says "preserved, unless there
is a range"). -/
theorem normalize_ref_range_drops_suffix :
    normalize_ref ("44.1÷3>").toList ("pl").toList ("nf").toList
      [("pl").toList] ("ot").toList
      = some (("nfpl44.1 nfpl44.2 nfpl44.3").toList) := by
  decide

/-- C7 (amended): a trailing relation-suffix character (`-`, `>`, `<`, `!`)
is preserved on the emitted ID for a plain sub-token (digit-initial, no
range `÷`, no semicolon, no list separators): the sub-token is emitted
verbatim behind its namespace prefix, so it still ends in the suffix
character.  Range expansion, by contrast, drops such suffixes. -/
theorem spec_suffix_preserved_plain
    (s prefix_default prefix_nf prefix_other : List Char)
    (lang_prefixes : List (List Char)) (c : Char)
    (hq : s.getLast? = some c)
    (hcs : c = '-' ∨ c = '>' ∨ c = '<' ∨ c = '!')
    (hd : s.head?.elim false Char.isDigit = true)
    (hc : ',' ∉ s) (hp : '+' ∉ s) (hr : '÷' ∉ s) (hs : ';' ∉ s)
    (hnf1 : '÷' ∉ prefix_nf ++ prefix_default) (hnf2 : ';' ∉ prefix_nf ++ prefix_default)
    (hot1 : '÷' ∉ prefix_other ++ prefix_default) (hot2 : ';' ∉ prefix_other ++ prefix_default) :
    normalize_ref s prefix_default prefix_nf lang_prefixes prefix_other =
      some ((if prefix_default ∈ lang_prefixes then prefix_nf ++ prefix_default
             else prefix_other ++ prefix_default) ++ s) ∧
    ((if prefix_default ∈ lang_prefixes then prefix_nf ++ prefix_default
      else prefix_other ++ prefix_default) ++ s).getLast? = some c := by
  have hne : s ≠ [] := by
    intro h
    rw [h] at hq
    simp at hq
  have hwhite : c.isWhitespace = false := by
    rcases hcs with h | h | h | h <;> subst h <;> decide
  have hblank : isBlank s = false :=
    isBlank_false_of_mem (mem_of_getLast?_eq hq) hwhite
  have hnotq : ¬(s.getLast? = some '?') := by
    rw [hq]
    rcases hcs with h | h | h | h <;> subst h <;> decide
  constructor
  · rw [normalize_ref_single s _ _ _ _ hc hp]
    have hproc : processSref s prefix_default prefix_nf lang_prefixes prefix_other
        = some [(if prefix_default ∈ lang_prefixes then prefix_nf ++ prefix_default
                 else prefix_other ++ prefix_default) ++ s] := by
      unfold processSref
      rw [hblank]
      simp only [Bool.false_eq_true, if_false, hd, if_true]
      by_cases hmem : prefix_default ∈ lang_prefixes
      · rw [if_pos hmem]
        rw [expandSref_plain _ (not_mem_append₂ hnf1 hr) (not_mem_append₂ hnf2 hs)]
        rw [if_neg (by rw [List.getLast?_append_of_ne_nil _ hne]; exact hnotq)]
      · rw [if_neg hmem]
        rw [expandSref_plain _ (not_mem_append₂ hot1 hr) (not_mem_append₂ hot2 hs)]
        rw [if_neg (by rw [List.getLast?_append_of_ne_nil _ hne]; exact hnotq)]
    rw [hproc]
    simp [intercalate_singleton]
  · rw [List.getLast?_append_of_ne_nil _ hne]
    exact hq

/-- Witness for the amended C7 theorem at `"44.2-"` (citation-only suffix). -/
theorem spec_suffix_preserved_plain_witness :
    (("44.2-").toList.getLast? = some '-') ∧
    normalize_ref ("44.2-").toList ("pl").toList ("nf").toList
      [("pl").toList] ("ot").toList = some (("nfpl44.2-").toList) ∧
    (("nfpl44.2-").toList.getLast? = some '-') := by
  refine ⟨by decide, ?_, by decide⟩
  have h := spec_suffix_preserved_plain ("44.2-").toList ("pl").toList ("nf").toList
    ("ot").toList [("pl").toList] '-' (by decide) (by decide) (by decide) (by decide)
    (by decide) (by decide) (by decide) (by decide) (by decide) (by decide) (by decide)
  have h1 := h.1
  rw [if_pos (by decide)] at h1
  exact h1

/-- C8 counterexample: the claim "the surviving numeric path appears in the
output prefixed with `other_prefix + sheet_prefix`" is false for
letter-prefixed sub-tokens: resolving `"XX44.2"` (prefix `XX` not in the
known set) yields an *empty* output — the rewritten `other`-namespace
reference is discarded by the `continue` before anything is appended. -/
theorem normalize_ref_drops_unrecognized_prefix :
    normalize_ref ("XX44.2").toList ("pl").toList ("nf").toList
      [("pl").toList] ("ot").toList = some [] := by
  decide

/-- C8 (amended): a non-empty sub-token whose leading letter sequence is not
in the known prefix set is rewritten into the "other" namespace but then
dropped from the output entirely: the resolver emits nothing for it. -/
theorem spec_unrecognized_prefix_dropped
    (s prefix_default prefix_nf prefix_other : List Char)
    (lang_prefixes : List (List Char)) (pfx : List Char)
    (hm : matchLetters s = some pfx)
    (hnot : pfx ∉ lang_prefixes)
    (hc : ',' ∉ s) (hp : '+' ∉ s) :
    normalize_ref s prefix_default prefix_nf lang_prefixes prefix_other = some [] := by
  obtain ⟨a, rest, hsa, halpha⟩ : ∃ a rest, s = a :: rest ∧ a.isAlpha = true := by
    unfold matchLetters at hm
    cases s with
    | nil => simp [List.takeWhile] at hm
    | cons a rest =>
      by_cases hpa : a.isAlpha = true
      · exact ⟨a, rest, rfl, hpa⟩
      · rw [List.takeWhile_cons, if_neg (by simp [hpa])] at hm
        simp at hm
  have hblank : isBlank s = false :=
    isBlank_false_of_mem (by rw [hsa]; exact List.mem_cons_self a rest)
      (isAlpha_isWhitespace_false a halpha)
  have hdig : s.head?.elim false Char.isDigit = false := by
    rw [hsa]
    simp only [List.head?_cons, Option.elim_some]
    exact isAlpha_isDigit_false a halpha
  rw [normalize_ref_single s _ _ _ _ hc hp]
  have hproc : processSref s prefix_default prefix_nf lang_prefixes prefix_other
      = some [] := by
    unfold processSref
    rw [hblank, hdig]
    simp only [Bool.false_eq_true, if_false, hm]
    rw [if_pos hnot]
  rw [hproc]
  simp [List.intercalate]

/-- Witness for the amended C8 theorem at `"XX44.2"`. -/
theorem spec_unrecognized_prefix_dropped_witness :
    (matchLetters ("XX44.2").toList = some (("XX").toList)) ∧
    normalize_ref ("XX44.2").toList ("pl").toList ("nf").toList
      [("pl").toList] ("ot").toList = some [] :=
  ⟨by decide,
   spec_unrecognized_prefix_dropped _ _ _ _ _ (("XX").toList) (by decide) (by decide)
     (by decide) (by decide)⟩

/-! ### Claims C1, C2 (counterexample), C3 (counterexample), C10 -/

/-- C1: evaluation at the failing input.  With `A = {a1, a2}`, `B = {b1, b2}`
and `a1 S761 b1`, `a2 S761 b2` (distinct targets), the engine asserts
nothing at all — `infer_derivatives` returns the graph unchanged and in
particular does not add `A S761 B`, contradicting both the spec and the
function's own docstring ("every component of A is derivative of a
component of B, make A derivative of B"): the code demands
`len(set(di[1] for di in derivinfo)) == 1`, i.e. all components must share
one **identical** target node, not one target per component. -/
theorem infer_derivatives_composite_no_assertion :
    infer_derivatives derivCexGraph = derivCexGraph ∧
    ¬ (infer_derivatives derivCexGraph).has
        (LKG (("F2_A").toList), S761_is_translation_of, LKG (("F2_B").toList)) := by
  decide

/-- C2 counterexample: an Expression with derivative edges to two distinct
root Expressions is linked via `realizes` to **two** Work entities in a
single pass: `d R76 r1`, `d R76 r2` makes `infer_works` create `F1_r1` and
`F1_r2`, both realised by `d` — so "at most one Work realized by e is ever
created" is false. -/
theorem infer_works_two_works_for_shared_derivative :
    (infer_works worksCexGraph []).isSome = true ∧
    ((infer_works worksCexGraph []).getD worksDefault).out.has
        (LKG (("F2_d").toList), R3i_realises, LKG (("F1_r1").toList)) ∧
    ((infer_works worksCexGraph []).getD worksDefault).out.has
        (LKG (("F2_d").toList), R3i_realises, LKG (("F1_r2").toList)) ∧
    ((infer_works worksCexGraph []).getD worksDefault).out.has
        (LKG (("F1_r1").toList), RDF_type, F1_Work) ∧
    ((infer_works worksCexGraph []).getD worksDefault).out.has
        (LKG (("F1_r2").toList), RDF_type, F1_Work) ∧
    LKG (("F1_r1").toList) ≠ LKG (("F1_r2").toList) := by
  decide

/-- C3 counterexample: on an input graph whose derivative-type relations are
asymmetric and irreflexive (and whose hierarchy is inverse-paired), the
engine asserts `(A, S761, B)` while `(B, S761, A)` is already in the input,
so the resulting graph contains a two-cycle: the claim "for every asserted
`(A,p,B)`, `(B,p,A)` does not hold in the resulting graph" is false. -/
theorem infer_derivatives_two_cycle_with_input_reverse :
    derivAsymmetric asymCexGraph ∧ derivIrreflexive asymCexGraph ∧
    hierarchyPaired asymCexGraph ∧
    ¬ asymCexGraph.has
        (LKG (("F2_A").toList), S761_is_translation_of, LKG (("F2_B").toList)) ∧
    (infer_derivatives asymCexGraph).has
        (LKG (("F2_A").toList), S761_is_translation_of, LKG (("F2_B").toList)) ∧
    (infer_derivatives asymCexGraph).has
        (LKG (("F2_B").toList), S761_is_translation_of, LKG (("F2_A").toList)) := by
  decide

theorem infer_works_step_input (st st' : WorksState) (exp : Node)
    (h : infer_works_step st exp = some st') : st'.input = st.input := by
  unfold infer_works_step at h
  split at h
  · cases h; rfl
  · split at h
    · cases h; rfl
    · split at h
      · cases h; rfl
      · split at h
        · exact Option.noConfusion h
        · cases h; rfl

theorem infer_works_foldl_input : ∀ (l : List Node) (st st' : WorksState),
    List.foldlM infer_works_step st l = some st' → st'.input = st.input := by
  intro l
  induction l with
  | nil =>
    intro st st' h
    simp only [List.foldlM_nil] at h
    cases h
    rfl
  | cons x xs ih =>
    intro st st' h
    rw [List.foldlM_cons] at h
    cases hx : infer_works_step st x with
    | none => rw [hx] at h; exact Option.noConfusion h
    | some st1 =>
      rw [hx] at h
      have h2 : List.foldlM infer_works_step st1 xs = some st' := h
      rw [ih st1 st' h2, infer_works_step_input st st1 x hx]

/-- C10: `infer_works` never mutates its input graph: every triple it infers
goes to the freshly created result graph `.out`, and the input component of
the threaded state is unchanged by the whole run. -/
theorem spec_infer_works_input_unchanged (g : Graph) (a : AllocState) (st : WorksState)
    (h : infer_works g a = some st) : st.input = g := by
  unfold infer_works at h
  exact infer_works_foldl_input _ _ _ h

/-- Witness for C10 at a concrete run. -/
theorem spec_infer_works_input_unchanged_witness :
    infer_works worksCexGraph [] = some ((infer_works worksCexGraph []).getD worksDefault) ∧
    ((infer_works worksCexGraph []).getD worksDefault).input = worksCexGraph :=
  ⟨by decide,
   spec_infer_works_input_unchanged worksCexGraph []
     ((infer_works worksCexGraph []).getD worksDefault) (by decide)⟩

/-! ### Work-inference lemmas for the second-run theorem -/

theorem Graph.mem_add {g : Graph} {t u : Triple} :
    t ∈ (g.add u).triples ↔ t ∈ g.triples ∨ t = u := by
  unfold Graph.add
  split
  · constructor
    · exact Or.inl
    · rintro (h | rfl) <;> assumption
  · simp [List.mem_append]

theorem mem_foldl_add : ∀ (L : List Triple) (g : Graph) (t : Triple),
    t ∈ (L.foldl Graph.add g).triples ↔ t ∈ g.triples ∨ t ∈ L := by
  intro L
  induction L with
  | nil => simp
  | cons x xs ih =>
    intro g t
    simp only [List.foldl_cons]
    rw [ih, Graph.mem_add, List.mem_cons]
    tauto

theorem Graph.mem_merge {g h : Graph} {t : Triple} :
    t ∈ (g.merge h).triples ↔ t ∈ g.triples ∨ t ∈ h.triples := by
  unfold Graph.merge
  exact mem_foldl_add _ _ _

theorem Graph.mem_subjects {g : Graph} {x p o : Node} :
    x ∈ g.subjects p o ↔ (x, p, o) ∈ g.triples := by
  unfold Graph.subjects
  simp only [List.mem_map, List.mem_filter, decide_eq_true_eq]
  constructor
  · rintro ⟨⟨s, q, r⟩, ⟨ht, hp, ho⟩, rfl⟩
    simp only at hp ho ⊢
    rw [← hp, ← ho]
    exact ht
  · intro h
    exact ⟨(x, p, o), ⟨h, rfl, rfl⟩, rfl⟩

theorem mem_derivStep {g : Graph} {x o : Node} :
    o ∈ derivStep g x ↔ ∃ p ∈ derivPreds, (x, p, o) ∈ g.triples := by
  unfold derivStep
  simp only [List.mem_map, List.mem_filter, decide_eq_true_eq]
  constructor
  · rintro ⟨⟨s, q, r⟩, ⟨ht, hs, hq⟩, rfl⟩
    simp only at hs hq ⊢
    exact ⟨q, hq, by rw [← hs]; exact ht⟩
  · rintro ⟨p, hp, h⟩
    exact ⟨(x, p, o), ⟨h, rfl, hp⟩, rfl⟩

theorem value_isSome_of_mem {g : Graph} {x p o : Node} (h : (x, p, o) ∈ g.triples) :
    (g.value x p).isSome = true := by
  unfold Graph.value Graph.objects
  have hmem : o ∈ (g.triples.filter (fun t => decide (t.1 = x ∧ t.2.1 = p))).map
      (fun t => t.2.2) := by
    simp only [List.mem_map, List.mem_filter, decide_eq_true_eq]
    exact ⟨(x, p, o), ⟨h, rfl, rfl⟩, rfl⟩
  cases hl : (g.triples.filter (fun t => decide (t.1 = x ∧ t.2.1 = p))).map
      (fun t => t.2.2) with
  | nil => rw [hl] at hmem; simp at hmem
  | cons a l => rfl

theorem closureAux_visited_sub (succ : Node → List Node) :
    ∀ (fuel : Nat) (front vis : List Node) (x : Node), x ∈ vis →
      x ∈ closureAux succ fuel front vis := by
  intro fuel
  induction fuel with
  | zero => intro front vis x h; exact h
  | succ f ih =>
    intro front vis x h
    cases front with
    | nil => exact h
    | cons c rest =>
      show x ∈ (if c ∈ vis then closureAux succ f rest vis
                else closureAux succ f (rest ++ succ c) (vis ++ [c]))
      split
      · exact ih _ _ _ h
      · exact ih _ _ _ (by simp [h])

theorem closureAux_mem_source (succ : Node → List Node) :
    ∀ (fuel : Nat) (front vis : List Node) (x : Node),
      x ∈ closureAux succ fuel front vis →
      x ∈ vis ∨ x ∈ front ∨ ∃ y, x ∈ succ y := by
  intro fuel
  induction fuel with
  | zero => intro front vis x h; exact Or.inl h
  | succ f ih =>
    intro front vis x h
    cases front with
    | nil => exact Or.inl h
    | cons c rest =>
      have h' : x ∈ (if c ∈ vis then closureAux succ f rest vis
                     else closureAux succ f (rest ++ succ c) (vis ++ [c])) := h
      split at h'
      · rcases ih _ _ _ h' with hv | hf | hs
        · exact Or.inl hv
        · exact Or.inr (Or.inl (by simp [hf]))
        · exact Or.inr (Or.inr hs)
      · rcases ih _ _ _ h' with hv | hf | hs
        · rcases List.mem_append.mp hv with hv | hv
          · exact Or.inl hv
          · simp at hv
            exact Or.inr (Or.inl (by simp [hv]))
        · rcases List.mem_append.mp hf with hf | hf
          · exact Or.inr (Or.inl (by simp [hf]))
          · exact Or.inr (Or.inr ⟨c, hf⟩)
        · exact Or.inr (Or.inr hs)

theorem derivPathObjects_eq_nil_iff {g : Graph} {x : Node} :
    derivPathObjects g x = [] ↔ derivStep g x = [] := by
  unfold derivPathObjects
  constructor
  · intro h
    cases hs : derivStep g x with
    | nil => rfl
    | cons c rest =>
      exfalso
      rw [hs] at h
      have hk : closureFuel g = (closureFuel g - 1) + 1 := by
        unfold closureFuel
        omega
      rw [hk] at h
      have hc : c ∈ closureAux (derivStep g) ((closureFuel g - 1) + 1) (c :: rest) [] := by
        show c ∈ (if c ∈ ([] : List Node) then _
                  else closureAux (derivStep g) (closureFuel g - 1) (rest ++ derivStep g c) ([] ++ [c]))
        rw [if_neg (by simp)]
        exact closureAux_visited_sub _ _ _ _ _ (by simp)
      rw [h] at hc
      simp at hc
  · intro h
    rw [h]
    have hk : closureFuel g = (closureFuel g - 1) + 1 := by
      unfold closureFuel
      omega
    rw [hk]
    rfl

/-- Every member of the reverse derivative closure has an outgoing
derivative-type edge. -/
theorem derivPathSubjects_has_outgoing {g : Graph} {r y : Node}
    (h : y ∈ derivPathSubjects g r) : derivStep g y ≠ [] := by
  unfold derivPathSubjects at h
  have hrev : ∀ z, y ∈ derivStepRev g z → derivStep g y ≠ [] := by
    intro z hz
    unfold derivStepRev at hz
    simp only [List.mem_map, List.mem_filter, decide_eq_true_eq] at hz
    obtain ⟨⟨s, q, o⟩, ⟨ht, ho, hq⟩, hy⟩ := hz
    simp only at ho hq hy
    subst hy
    subst ho
    exact List.ne_nil_of_mem (mem_derivStep.mpr ⟨q, hq, ht⟩)
  rcases closureAux_mem_source (derivStepRev g) (closureFuel g) (derivStepRev g r) [] y h with
    hv | hf | ⟨z, hz⟩
  · simp at hv
  · exact hrev r hf
  · exact hrev z hz

theorem outOk_of_pred {t : Triple} (h1 : t.2.1 ≠ RDF_type) (h2 : t.2.1 ∉ derivPreds)
    (h3 : t.2.1 ≠ SKIP) : OutOk t :=
  ⟨fun h => absurd h h1, h2, h3⟩

theorem outOk_mk {s p o : Node} (h1 : p ≠ RDF_type) (h2 : p ∉ derivPreds)
    (h3 : p ≠ SKIP) : OutOk (s, p, o) :=
  ⟨fun h => absurd h h1, h2, h3⟩

theorem outOk_typeF1 {s : Node} : OutOk (s, RDF_type, F1_Work) :=
  ⟨fun _ => Or.inl rfl, show RDF_type ∉ derivPreds by decide,
   show RDF_type ≠ SKIP by decide⟩

theorem outOk_typeF27 {s : Node} : OutOk (s, RDF_type, F27_Work_Creation) :=
  ⟨fun _ => Or.inr rfl, show RDF_type ∉ derivPreds by decide,
   show RDF_type ≠ SKIP by decide⟩

theorem work_triple_list_ok (exp f2_label : Node) (copyvals : List Node)
    (authorPairs dpairs : List (Node × Node)) (ordchars : Node)
    (hap : ∀ pv ∈ authorPairs, pv.1 ∈ authorprops) :
    ∀ t ∈ work_triple_list exp f2_label copyvals authorPairs dpairs ordchars, OutOk t := by
  have hcp : ∀ p ∈ copyprops, ¬p = RDF_type ∧ p ∉ derivPreds ∧ ¬p = SKIP := by decide
  have hau : ∀ p ∈ authorprops, ¬p = RDF_type ∧ p ∉ derivPreds ∧ ¬p = SKIP := by decide
  simp only [work_triple_list]
  refine List.forall_mem_append.mpr ⟨List.forall_mem_append.mpr
    ⟨List.forall_mem_append.mpr ⟨List.forall_mem_append.mpr ⟨?_, ?_⟩, ?_⟩, ?_⟩, ?_⟩
  · intro t ht
    simp only [List.mem_cons, List.not_mem_nil, or_false] at ht
    rcases ht with h | h
    · subst h
      exact outOk_typeF1
    · subst h
      exact outOk_mk (by decide) (by decide) (by decide)
  · intro t ht
    obtain ⟨pv, hpv, h⟩ := List.mem_map.mp ht
    subst h
    have hc := hcp pv.1 (List.of_mem_zip hpv).1
    exact outOk_mk hc.1 hc.2.1 hc.2.2
  · intro t ht
    simp only [List.mem_cons, List.not_mem_nil, or_false] at ht
    rcases ht with h | h | h | h | h | h | h | h | h <;> subst h <;>
      first
      | exact outOk_mk (by decide) (by decide) (by decide)
      | exact outOk_typeF27
  · intro t ht
    obtain ⟨pv, hpv, h⟩ := List.mem_map.mp ht
    subst h
    have hc := hau pv.1 (hap pv hpv)
    exact outOk_mk hc.1 hc.2.1 hc.2.2
  · intro t ht
    obtain ⟨dp, hdp, hmem⟩ := List.mem_flatMap.mp ht
    simp only [List.mem_cons, List.not_mem_nil, or_false] at hmem
    rcases hmem with h | h | h | h <;> subst h <;>
      exact outOk_mk (by decide) (by decide) (by decide)

theorem work_triple_list_realizes (exp f2_label : Node) (copyvals : List Node)
    (authorPairs dpairs : List (Node × Node)) (ordchars : Node) :
    (LKG (get_id_from_uri exp), R3i_realises,
      LKG (replaceFirst (("F2_").toList) (("F1_").toList) (get_id_from_uri exp))) ∈
      work_triple_list exp f2_label copyvals authorPairs dpairs ordchars := by
  unfold work_triple_list
  simp [List.mem_append]

theorem work_triples_some {graph : Graph} {exp : Node} {a : AllocState}
    {ts : List Triple} {a2 : AllocState}
    (h : work_triples graph exp a = some (ts, a2)) :
    ∃ f2_label copyvals authorPairs dpairs ordchars,
      ts = work_triple_list exp f2_label copyvals authorPairs dpairs ordchars ∧
      ∀ pv ∈ authorPairs, pv.1 ∈ authorprops := by
  simp only [work_triples] at h
  cases hd : dictLookup (graph.predicate_objects exp) RDFS_label with
  | none => rw [hd] at h; exact Option.noConfusion h
  | some f2_label =>
    rw [hd] at h
    cases hc : copyprops.mapM (fun p => dictLookup (graph.predicate_objects exp) p) with
    | none => rw [hc] at h; exact Option.noConfusion h
    | some copyvals =>
      rw [hc] at h
      cases hdp : (derivPathSubjects graph exp).mapM
          (fun d => (graph.value d R17i_was_created_by).map (fun f28 => (d, f28))) with
      | none => rw [hdp] at h; exact Option.noConfusion h
      | some dpairs =>
        rw [hdp] at h
        simp only [Option.some.injEq, Prod.mk.injEq] at h
        refine ⟨f2_label, copyvals, _, dpairs, _, h.1.symm, ?_⟩
        intro pv hpv
        simpa using (List.mem_filter.mp hpv).2
theorem mem_of_value {g : Graph} {x p o : Node} (h : g.value x p = some o) :
    (x, p, o) ∈ g.triples := by
  unfold Graph.value at h
  have hmem : o ∈ (Graph.objects g x p) := List.mem_of_mem_head? (by rw [h]; rfl)
  unfold Graph.objects at hmem
  simp only [List.mem_map, List.mem_filter, decide_eq_true_eq] at hmem
  obtain ⟨⟨s, q, r⟩, ⟨ht, hs, hq⟩, hr⟩ := hmem
  simp only at hs hq hr
  subst hs
  subst hq
  subst hr
  exact ht

theorem infer_works_step_out_mono {st st' : WorksState} {exp : Node}
    (h : infer_works_step st exp = some st') :
    ∀ t ∈ st.out.triples, t ∈ st'.out.triples := by
  unfold infer_works_step at h
  split at h
  · cases h; exact fun t ht => ht
  · split at h
    · cases h; exact fun t ht => ht
    · split at h
      · cases h; exact fun t ht => ht
      · cases hw : work_triples st.input exp st.alloc with
        | none => rw [hw] at h; exact Option.noConfusion h
        | some pair =>
          obtain ⟨ts, a2⟩ := pair
          rw [hw] at h
          cases h
          exact fun t ht => (mem_foldl_add ts st.out t).mpr (Or.inl ht)

theorem infer_works_step_out_ok {st st' : WorksState} {exp : Node}
    (h : infer_works_step st exp = some st')
    (hok : ∀ t ∈ st.out.triples, OutOk t) :
    ∀ t ∈ st'.out.triples, OutOk t := by
  unfold infer_works_step at h
  split at h
  · cases h; exact hok
  · split at h
    · cases h; exact hok
    · split at h
      · cases h; exact hok
      · cases hw : work_triples st.input exp st.alloc with
        | none => rw [hw] at h; exact Option.noConfusion h
        | some pair =>
          obtain ⟨ts, a2⟩ := pair
          rw [hw] at h
          cases h
          intro t ht
          rcases (mem_foldl_add ts st.out t).mp ht with hold | hnew
          · exact hok t hold
          · obtain ⟨lbl, cv, aps, dp, oc, hts, hap⟩ := work_triples_some hw
            rw [hts] at hnew
            exact work_triple_list_ok exp lbl cv aps dp oc hap t hnew

theorem infer_works_step_skip_sources {st : WorksState} {exp : Node}
    (h : derivStep st.input exp ≠ []) : infer_works_step st exp = some st := by
  unfold infer_works_step
  rw [if_pos (fun hnil => h (derivPathObjects_eq_nil_iff.mp hnil))]

theorem infer_works_step_skip_realises {st : WorksState} {exp : Node}
    (hsrc : derivStep st.input exp = [])
    (h : (st.input.value exp R3i_realises).isSome = true) :
    infer_works_step st exp = some st := by
  unfold infer_works_step
  rw [if_neg (by simp [derivPathObjects_eq_nil_iff, hsrc]), if_pos h]

theorem infer_works_step_skip_marker {st : WorksState} {exp : Node}
    (hsrc : derivStep st.input exp = [])
    (hmark : (st.input.triples.filter (fun t => decide (t.1 = exp ∧ t.2.1 = SKIP))) ≠ []) :
    infer_works_step st exp = some st := by
  unfold infer_works_step
  rw [if_neg (by simp [derivPathObjects_eq_nil_iff, hsrc])]
  by_cases hreal : (st.input.value exp R3i_realises).isSome = true
  · rw [if_pos hreal]
  · rw [if_neg hreal, if_pos hmark]

theorem infer_works_step_processed {st st' : WorksState} {exp : Node}
    (h : infer_works_step st exp = some st')
    (hsrc : derivStep st.input exp = [])
    (hreal : st.input.value exp R3i_realises = none)
    (hmark : (st.input.triples.filter (fun t => decide (t.1 = exp ∧ t.2.1 = SKIP))) = []) :
    ∃ w, (LKG (get_id_from_uri exp), R3i_realises, w) ∈ st'.out.triples := by
  unfold infer_works_step at h
  rw [if_neg (by simp [derivPathObjects_eq_nil_iff, hsrc]),
    if_neg (by rw [hreal]; simp), if_neg (not_ne_iff.mpr hmark)] at h
  cases hw : work_triples st.input exp st.alloc with
  | none => rw [hw] at h; exact Option.noConfusion h
  | some pair =>
    obtain ⟨ts, a2⟩ := pair
    rw [hw] at h
    cases h
    obtain ⟨lbl, cv, aps, dp, oc, hts, _⟩ := work_triples_some hw
    refine ⟨LKG (replaceFirst (("F2_").toList) (("F1_").toList) (get_id_from_uri exp)), ?_⟩
    exact (mem_foldl_add ts st.out _).mpr
      (Or.inr (hts ▸ work_triple_list_realizes exp lbl cv aps dp oc))

theorem infer_works_fold_out_mono : ∀ (l : List Node) (st st' : WorksState),
    List.foldlM infer_works_step st l = some st' →
    ∀ t ∈ st.out.triples, t ∈ st'.out.triples := by
  intro l
  induction l with
  | nil =>
    intro st st' h
    simp only [List.foldlM_nil] at h
    cases h
    exact fun t ht => ht
  | cons x xs ih =>
    intro st st' h
    rw [List.foldlM_cons] at h
    cases hx : infer_works_step st x with
    | none => rw [hx] at h; exact Option.noConfusion h
    | some st1 =>
      rw [hx] at h
      have h2 : List.foldlM infer_works_step st1 xs = some st' := h
      exact fun t ht => ih st1 st' h2 t (infer_works_step_out_mono hx t ht)

theorem infer_works_fold_out_ok : ∀ (l : List Node) (st st' : WorksState),
    List.foldlM infer_works_step st l = some st' →
    (∀ t ∈ st.out.triples, OutOk t) →
    ∀ t ∈ st'.out.triples, OutOk t := by
  intro l
  induction l with
  | nil =>
    intro st st' h hok
    simp only [List.foldlM_nil] at h
    cases h
    exact hok
  | cons x xs ih =>
    intro st st' h hok
    rw [List.foldlM_cons] at h
    cases hx : infer_works_step st x with
    | none => rw [hx] at h; exact Option.noConfusion h
    | some st1 =>
      rw [hx] at h
      have h2 : List.foldlM infer_works_step st1 xs = some st' := h
      exact ih st1 st' h2 (infer_works_step_out_ok hx hok)

theorem infer_works_fold_realizes (G : Graph) : ∀ (l : List Node) (st st' : WorksState),
    st.input = G →
    List.foldlM infer_works_step st l = some st' →
    ∀ exp ∈ l, derivStep G exp = [] → G.value exp R3i_realises = none →
      (G.triples.filter (fun t => decide (t.1 = exp ∧ t.2.1 = SKIP))) = [] →
      ∃ w, (LKG (get_id_from_uri exp), R3i_realises, w) ∈ st'.out.triples := by
  intro l
  induction l with
  | nil =>
    intro st st' _ _ exp hexp
    simp at hexp
  | cons x xs ih =>
    intro st st' hin h exp hexp hsrc hreal hmark
    rw [List.foldlM_cons] at h
    cases hx : infer_works_step st x with
    | none => rw [hx] at h; exact Option.noConfusion h
    | some st1 =>
      rw [hx] at h
      have h2 : List.foldlM infer_works_step st1 xs = some st' := h
      rcases List.mem_cons.mp hexp with heq | htail
      · subst heq
        obtain ⟨w, hw⟩ := infer_works_step_processed hx (hin ▸ hsrc) (hin ▸ hreal) (hin ▸ hmark)
        exact ⟨w, infer_works_fold_out_mono xs st1 st' h2 _ hw⟩
      · exact ih st1 st' (by rw [infer_works_step_input st st1 x hx, hin]) h2 exp htail hsrc hreal hmark

theorem infer_works_out_ok {g : Graph} {a : AllocState} {st : WorksState}
    (h : infer_works g a = some st) : ∀ t ∈ st.out.triples, OutOk t := by
  unfold infer_works at h
  refine infer_works_fold_out_ok _ _ _ h ?_
  intro t ht
  simp [make_base_graph] at ht

theorem infer_works_realizes {g : Graph} {a : AllocState} {st : WorksState}
    (h : infer_works g a = some st) :
    ∀ exp ∈ g.subjects RDF_type F2_Expression,
      derivStep g exp = [] → g.value exp R3i_realises = none →
      (g.triples.filter (fun t => decide (t.1 = exp ∧ t.2.1 = SKIP))) = [] →
      ∃ w, (LKG (get_id_from_uri exp), R3i_realises, w) ∈ st.out.triples := by
  unfold infer_works at h
  exact infer_works_fold_realizes g _ _ _ rfl h

theorem infer_works_foldlM_const {l : List Node} {st : WorksState}
    (h : ∀ x ∈ l, infer_works_step st x = some st) :
    List.foldlM infer_works_step st l = some st := by
  induction l with
  | nil => rfl
  | cons x xs ih =>
    rw [List.foldlM_cons, h x (by simp)]
    show List.foldlM infer_works_step st xs = some st
    exact ih (fun y hy => h y (by simp [hy]))

/-- C2 (amended): Work inference skips any Expression already linked via
`realizes` as a cluster root, and running it a second time on the merged
result graph is a strict no-op: the second run emits an empty graph, so no
new Work realized by any Expression is ever created by a re-run.  The
"at most one Work per Expression" part of the claim holds only when
derivative clusters are disjoint — an Expression with derivative paths to
two distinct roots receives `realizes` links to two distinct Works in a
single pass (see the counterexample). -/
theorem spec_work_inference_second_run_noop
    (g : Graph) (a a2 : AllocState) (st : WorksState)
    (hrun : infer_works g a = some st)
    (hns : ∀ x ∈ g.subjects RDF_type F2_Expression, x = LKG (get_id_from_uri x)) :
    infer_works (g.merge st.out) a2 = some ⟨g.merge st.out, make_base_graph, a2⟩ := by
  have hok : ∀ t ∈ st.out.triples, OutOk t := infer_works_out_ok hrun
  unfold infer_works
  apply infer_works_foldlM_const
  intro exp hexp
  have hexpg : (exp, RDF_type, F2_Expression) ∈ g.triples := by
    rcases Graph.mem_merge.mp (Graph.mem_subjects.mp hexp) with h | h
    · exact h
    · exfalso
      rcases (hok _ h).1 rfl with h1 | h1
      · exact absurd h1 (show F2_Expression ≠ F1_Work by decide)
      · exact absurd h1 (show F2_Expression ≠ F27_Work_Creation by decide)
  have hstep : ∀ o, o ∈ derivStep (g.merge st.out) exp ↔ o ∈ derivStep g exp := by
    intro o
    rw [mem_derivStep, mem_derivStep]
    constructor
    · rintro ⟨p, hp, hm⟩
      rcases Graph.mem_merge.mp hm with h | h
      · exact ⟨p, hp, h⟩
      · exact absurd hp (hok _ h).2.1
    · rintro ⟨p, hp, hm⟩
      exact ⟨p, hp, Graph.mem_merge.mpr (Or.inl hm)⟩
  by_cases hsrc : derivStep g exp = []
  · have hsrcm : derivStep (g.merge st.out) exp = [] := by
      rw [List.eq_nil_iff_forall_not_mem]
      intro o ho
      have := (hstep o).mp ho
      rw [hsrc] at this
      simp at this
    by_cases hreal : (g.value exp R3i_realises).isSome = true
    · apply infer_works_step_skip_realises hsrcm
      obtain ⟨o, ho⟩ := Option.isSome_iff_exists.mp hreal
      exact value_isSome_of_mem (Graph.mem_merge.mpr (Or.inl (mem_of_value ho)))
    · have hrealn : g.value exp R3i_realises = none := Option.not_isSome_iff_eq_none.mp hreal
      by_cases hmark : (g.triples.filter (fun t => decide (t.1 = exp ∧ t.2.1 = SKIP))) = []
      · obtain ⟨w, hw⟩ := infer_works_realizes hrun exp (Graph.mem_subjects.mpr hexpg)
          hsrc hrealn hmark
        apply infer_works_step_skip_realises hsrcm
        have hexp_eq := hns exp (Graph.mem_subjects.mpr hexpg)
        refine value_isSome_of_mem (o := w) (Graph.mem_merge.mpr (Or.inr ?_))
        rw [hexp_eq]
        exact hw
      · apply infer_works_step_skip_marker hsrcm
        obtain ⟨t, htf⟩ := List.exists_mem_of_ne_nil _ hmark
        have htg := List.mem_filter.mp htf
        intro hnil
        rw [List.eq_nil_iff_forall_not_mem] at hnil
        exact hnil t (List.mem_filter.mpr ⟨Graph.mem_merge.mpr (Or.inl htg.1), htg.2⟩)
  · apply infer_works_step_skip_sources
    intro hnil
    apply hsrc
    rw [List.eq_nil_iff_forall_not_mem] at hnil ⊢
    intro o ho
    exact hnil o ((hstep o).mpr ho)

/-- Witness for the amended C2 theorem: a concrete first run followed by a
second run on the merged graph, which emits nothing. -/
theorem spec_work_inference_second_run_noop_witness :
    infer_works
        (worksCexGraph.merge ((infer_works worksCexGraph []).getD worksDefault).out) [] =
      some ⟨worksCexGraph.merge ((infer_works worksCexGraph []).getD worksDefault).out,
        make_base_graph, []⟩ :=
  spec_work_inference_second_run_noop worksCexGraph [] []
    ((infer_works worksCexGraph []).getD worksDefault) (by decide) (by decide)

/-! ### Hierarchy-propagation lemmas -/

theorem Graph.mem_objects {g : Graph} {x p o : Node} :
    o ∈ g.objects x p ↔ (x, p, o) ∈ g.triples := by
  unfold Graph.objects
  simp only [List.mem_map, List.mem_filter, decide_eq_true_eq]
  constructor
  · rintro ⟨⟨s, q, r⟩, ⟨ht, hs, hq⟩, hr⟩
    simp only at hs hq hr
    subst hs
    subst hq
    subst hr
    exact ht
  · intro h
    exact ⟨(x, p, o), ⟨h, rfl, rfl⟩, rfl⟩

theorem marksExt_refl (pred val : Node) (g : Graph) : MarksExt pred val g g :=
  ⟨[], by simp, by simp⟩

theorem marksExt_trans {pred val : Node} {a b c : Graph}
    (h1 : MarksExt pred val a b) (h2 : MarksExt pred val b c) :
    MarksExt pred val a c := by
  obtain ⟨e1, he1, hm1⟩ := h1
  obtain ⟨e2, he2, hm2⟩ := h2
  refine ⟨e1 ++ e2, by rw [he2, he1, List.append_assoc], ?_⟩
  intro t ht
  rcases List.mem_append.mp ht with h | h
  · exact hm1 t h
  · exact hm2 t h

theorem marksExt_add (pred val : Node) (g : Graph) (n : Node) :
    MarksExt pred val g (g.add (n, pred, val)) := by
  unfold Graph.add
  split
  · exact marksExt_refl pred val g
  · exact ⟨[(n, pred, val)], rfl, by simp⟩

theorem marksExt_sub {pred val : Node} {g g' : Graph} (h : MarksExt pred val g g') :
    ∀ t ∈ g.triples, t ∈ g'.triples := by
  obtain ⟨ex, hex, _⟩ := h
  intro t ht
  rw [hex]
  exact List.mem_append.mpr (Or.inl ht)

theorem marksExt_edges {pred val : Node} {g g' : Graph} (h : MarksExt pred val g g')
    {x q y : Node} (hq : q ≠ pred) : (x, q, y) ∈ g'.triples ↔ (x, q, y) ∈ g.triples := by
  obtain ⟨ex, hex, hm⟩ := h
  rw [hex, List.mem_append]
  constructor
  · rintro (h1 | h1)
    · exact h1
    · obtain ⟨n, hn⟩ := hm _ h1
      cases hn
      exact absurd rfl hq
  · exact Or.inl

theorem marksExt_filter_eq {pred val : Node} {g g' : Graph} (h : MarksExt pred val g g')
    (p : Triple → Bool) (hp : ∀ n, p (n, pred, val) = false) :
    g'.triples.filter p = g.triples.filter p := by
  obtain ⟨ex, hex, hm⟩ := h
  rw [hex, List.filter_append]
  have : ex.filter p = [] := by
    rw [List.filter_eq_nil_iff]
    intro t ht
    obtain ⟨n, hn⟩ := hm t ht
    rw [hn, hp n]
    simp
  rw [this, List.append_nil]

theorem marksExt_objects_eq {pred val : Node} {g g' : Graph}
    (h : MarksExt pred val g g') {x q : Node} (hq : q ≠ pred) :
    g'.objects x q = g.objects x q := by
  unfold Graph.objects
  rw [marksExt_filter_eq h _ ?_]
  intro n
  simp only [decide_eq_false_iff_not]
  rintro ⟨_, hqp⟩
  exact hq hqp.symm

theorem marksExt_hierTargets_eq {pred val : Node} {g g' : Graph}
    (h : MarksExt pred val g g') {hier : Node} (hq : hier ≠ pred) :
    hierTargets g' hier = hierTargets g hier := by
  unfold hierTargets
  rw [marksExt_filter_eq h _ ?_]
  intro n
  simp only [decide_eq_false_iff_not]
  exact fun hp => hq hp.symm

theorem filter_length_mono {α} (l : List α) (p q : α → Bool)
    (h : ∀ x ∈ l, p x = true → q x = true) :
    (l.filter p).length ≤ (l.filter q).length := by
  induction l with
  | nil => simp
  | cons x xs ih =>
    have ih2 := ih (fun y hy => h y (by simp [hy]))
    by_cases hp : p x = true
    · rw [List.filter_cons_of_pos hp, List.filter_cons_of_pos (h x (by simp) hp)]
      simpa using ih2
    · rw [List.filter_cons_of_neg hp]
      by_cases hqx : q x = true
      · rw [List.filter_cons_of_pos hqx]
        exact le_trans ih2 (by simp)
      · rw [List.filter_cons_of_neg hqx]
        exact ih2

theorem unmarked_le_of_marksExt {pred val hier : Node} {g g' : Graph}
    (h : MarksExt pred val g g') (hq : hier ≠ pred) :
    unmarkedCount g' hier pred val ≤ unmarkedCount g hier pred val := by
  unfold unmarkedCount
  rw [marksExt_hierTargets_eq h hq]
  apply filter_length_mono
  intro n _ hn
  simp only [decide_eq_true_eq] at hn ⊢
  exact fun hmem => hn (marksExt_sub h _ hmem)

theorem filter_length_lt {α} : ∀ (l : List α), l.Nodup → ∀ (n : α), n ∈ l →
    ∀ (p q : α → Bool), (∀ x ∈ l, q x = true → p x = true) → p n = true → q n = false →
    (l.filter q).length + 1 ≤ (l.filter p).length := by
  intro l
  induction l with
  | nil => intro _ n hn; simp at hn
  | cons x xs ih =>
    intro hnd n hn p q himp hpn hqn
    have hnd2 := List.nodup_cons.mp hnd
    rcases List.mem_cons.mp hn with heq | htail
    · subst heq
      rw [List.filter_cons_of_pos hpn, List.filter_cons_of_neg (by simp [hqn])]
      have := filter_length_mono xs q p (fun y hy => himp y (by simp [hy]))
      simpa using this
    · have ihx := ih hnd2.2 n htail p q (fun y hy => himp y (by simp [hy])) hpn hqn
      by_cases hqx : q x = true
      · rw [List.filter_cons_of_pos hqx, List.filter_cons_of_pos (himp x (by simp) hqx)]
        simpa using ihx
      · rw [List.filter_cons_of_neg (by simp [hqx])]
        by_cases hpx : p x = true
        · rw [List.filter_cons_of_pos hpx]
          exact le_trans ihx (by simp)
        · rw [List.filter_cons_of_neg (by simp [hpx])]
          exact ihx

theorem unmarked_add_lt {pred val hier : Node} {g : Graph} {n : Node}
    (hmem : n ∈ hierTargets g hier) (hunm : (n, pred, val) ∉ g.triples)
    (hq : hier ≠ pred) :
    unmarkedCount (g.add (n, pred, val)) hier pred val + 1 ≤
      unmarkedCount g hier pred val := by
  unfold unmarkedCount
  rw [marksExt_hierTargets_eq (marksExt_add pred val g n) hq]
  refine filter_length_lt (hierTargets g hier) (List.nodup_dedup _) n hmem _ _ ?_ ?_ ?_
  · intro x _ hx
    simp only [decide_eq_true_eq] at hx ⊢
    intro hmemx
    exact hx (marksExt_sub (marksExt_add pred val g n) _ hmemx)
  · simpa using hunm
  · simp only [decide_eq_false_iff_not, not_not]
    exact (Graph.mem_add).mpr (Or.inr rfl)

theorem prop_ext (hier pred val : Node) :
    ∀ (fuel : Nat) (g : Graph) (src : Node),
      MarksExt pred val g (propagate_through_prop fuel g src hier pred val none) := by
  intro fuel
  induction fuel with
  | zero => intro g src; exact marksExt_refl pred val g
  | succ f ih =>
    intro g src
    show MarksExt pred val g
      (((g.objects src hier).reverse).foldl
        (propStep (fun gg n => propagate_through_prop f gg n hier pred val none)
          pred val none) g)
    generalize (g.objects src hier).reverse = l
    induction l generalizing g with
    | nil => exact marksExt_refl pred val g
    | cons x xs ihl =>
      simp only [List.foldl_cons]
      refine marksExt_trans ?_ (ihl _)
      show MarksExt pred val g (if (x, pred, val) ∈ g.triples then g
        else propagate_through_prop f (g.add (x, pred, val)) x hier pred val none)
      split
      · exact marksExt_refl pred val g
      · exact marksExt_trans (marksExt_add pred val g x) (ih _ x)

theorem Graph.add_nodup {g : Graph} {t : Triple} (h : g.triples.Nodup) :
    (g.add t).triples.Nodup := by
  unfold Graph.add
  split
  · exact h
  · next hmem =>
    simp only [List.nodup_append, List.nodup_cons]
    refine ⟨h, by simp, ?_⟩
    intro a ha hat
    rw [List.mem_singleton] at hat
    subst hat
    exact hmem ha

theorem prop_nodup (hier pred val : Node) :
    ∀ (fuel : Nat) (g : Graph) (src : Node), g.triples.Nodup →
      (propagate_through_prop fuel g src hier pred val none).triples.Nodup := by
  intro fuel
  induction fuel with
  | zero => intro g src h; exact h
  | succ f ih =>
    intro g src h
    show (((g.objects src hier).reverse).foldl
        (propStep (fun gg n => propagate_through_prop f gg n hier pred val none)
          pred val none) g).triples.Nodup
    generalize (g.objects src hier).reverse = l
    induction l generalizing g with
    | nil => exact h
    | cons x xs ihl =>
      simp only [List.foldl_cons]
      refine ihl _ ?_
      show (if (x, pred, val) ∈ g.triples then g
        else propagate_through_prop f (g.add (x, pred, val)) x hier pred val
          none).triples.Nodup
      split
      · exact h
      · exact ih _ x (Graph.add_nodup h)

theorem hierReach_of_edges {g g' : Graph} {hier : Node}
    (h : ∀ x y, (x, hier, y) ∈ g'.triples → (x, hier, y) ∈ g.triples) :
    ∀ {a b}, HierReach g' hier a b → HierReach g hier a b := by
  intro a b hr
  induction hr with
  | step he => exact HierReach.step (h _ _ he)
  | tail he _ ih => exact HierReach.tail (h _ _ he) ih

theorem propStep_ext (hier pred val : Node) (f : Nat) (gg : Graph) (x : Node) :
    MarksExt pred val gg
      (propStep (fun g2 n => propagate_through_prop f g2 n hier pred val none)
        pred val none gg x) := by
  show MarksExt pred val gg (if (x, pred, val) ∈ gg.triples then gg
    else propagate_through_prop f (gg.add (x, pred, val)) x hier pred val none)
  split
  · exact marksExt_refl pred val gg
  · exact marksExt_trans (marksExt_add pred val gg x) (prop_ext hier pred val f _ x)

theorem prop_sound (hier pred val : Node) (hpn : pred ≠ hier) :
    ∀ (fuel : Nat) (g : Graph) (src : Node) (t : Triple),
      t ∈ (propagate_through_prop fuel g src hier pred val none).triples →
      t ∈ g.triples ∨ ∃ n, t = (n, pred, val) ∧ HierReach g hier src n := by
  intro fuel
  induction fuel with
  | zero => intro g src t ht; exact Or.inl ht
  | succ f ih =>
    intro g src t ht
    have inner : ∀ (l' : List Node), (∀ x ∈ l', (src, hier, x) ∈ g.triples) →
        ∀ (gg : Graph), MarksExt pred val g gg →
        ∀ u ∈ (l'.foldl
            (propStep (fun g2 n => propagate_through_prop f g2 n hier pred val none)
              pred val none) gg).triples,
          u ∈ gg.triples ∨ ∃ n, u = (n, pred, val) ∧ HierReach g hier src n := by
      intro l'
      induction l' with
      | nil => intro _ gg _ u hu; exact Or.inl hu
      | cons x xs ihl =>
        intro hmem gg hgg u hu
        simp only [List.foldl_cons] at hu
        have hedge : (src, hier, x) ∈ g.triples := hmem x (by simp)
        have hres := ihl (fun y hy => hmem y (by simp [hy])) _
          (marksExt_trans hgg (propStep_ext hier pred val f gg x)) u hu
        rcases hres with hin | hmark
        · have hin' : u ∈ (if (x, pred, val) ∈ gg.triples then gg
              else propagate_through_prop f (gg.add (x, pred, val)) x hier pred val
                none).triples := hin
          by_cases hx : (x, pred, val) ∈ gg.triples
          · rw [if_pos hx] at hin'
            exact Or.inl hin'
          · rw [if_neg hx] at hin'
            rcases ih _ x u hin' with hin1 | ⟨n, hn, hr⟩
            · rcases Graph.mem_add.mp hin1 with h1 | h1
              · exact Or.inl h1
              · exact Or.inr ⟨x, h1, HierReach.step hedge⟩
            · refine Or.inr ⟨n, hn, HierReach.tail hedge ?_⟩
              refine hierReach_of_edges ?_ hr
              intro a b hab
              exact (marksExt_edges
                (marksExt_trans hgg (marksExt_add pred val gg x)) (Ne.symm hpn)).mp hab
        · exact Or.inr hmark
    have ht' : t ∈ (((g.objects src hier).reverse).foldl
        (propStep (fun g2 n => propagate_through_prop f g2 n hier pred val none)
          pred val none) g).triples := ht
    refine inner _ ?_ g (marksExt_refl pred val g) t ht'
    intro x hx
    exact Graph.mem_objects.mp (List.mem_reverse.mp hx)

theorem mem_hierTargets {g : Graph} {s hier x : Node}
    (h : (s, hier, x) ∈ g.triples) : x ∈ hierTargets g hier := by
  unfold hierTargets
  rw [List.mem_dedup, List.mem_map]
  exact ⟨(s, hier, x), List.mem_filter.mpr ⟨h, by simp⟩, rfl⟩

theorem prop_complete (hier pred val : Node) (hpn : pred ≠ hier) :
    ∀ (fuel : Nat) (g : Graph) (src : Node) (S : Node → Prop),
      unmarkedCount g hier pred val + 1 ≤ fuel →
      (∀ m c, ¬(m = src ∨ S m) → (m, pred, val) ∈ g.triples →
        (m, hier, c) ∈ g.triples → (c, pred, val) ∈ g.triples) →
      (∀ c ∈ g.objects src hier,
        (c, pred, val) ∈ (propagate_through_prop fuel g src hier pred val none).triples) ∧
      (∀ m c, ¬ S m →
        (m, pred, val) ∈ (propagate_through_prop fuel g src hier pred val none).triples →
        (m, hier, c) ∈ (propagate_through_prop fuel g src hier pred val none).triples →
        (c, pred, val) ∈ (propagate_through_prop fuel g src hier pred val none).triples) := by
  intro fuel
  induction fuel with
  | zero =>
    intro g src S hfuel
    omega
  | succ f ih =>
    intro g src S hfuel hinv
    have inner : ∀ (l : List Node), (∀ x ∈ l, (src, hier, x) ∈ g.triples) →
        ∀ (gg : Graph), MarksExt pred val g gg →
        (∀ m c, ¬(m = src ∨ S m) → (m, pred, val) ∈ gg.triples →
          (m, hier, c) ∈ gg.triples → (c, pred, val) ∈ gg.triples) →
        MarksExt pred val gg (l.foldl
            (propStep (fun g2 n => propagate_through_prop f g2 n hier pred val none)
              pred val none) gg) ∧
        (∀ x ∈ l, (x, pred, val) ∈ (l.foldl
            (propStep (fun g2 n => propagate_through_prop f g2 n hier pred val none)
              pred val none) gg).triples) ∧
        (∀ m c, ¬(m = src ∨ S m) →
          (m, pred, val) ∈ (l.foldl
            (propStep (fun g2 n => propagate_through_prop f g2 n hier pred val none)
              pred val none) gg).triples →
          (m, hier, c) ∈ (l.foldl
            (propStep (fun g2 n => propagate_through_prop f g2 n hier pred val none)
              pred val none) gg).triples →
          (c, pred, val) ∈ (l.foldl
            (propStep (fun g2 n => propagate_through_prop f g2 n hier pred val none)
              pred val none) gg).triples) := by
      intro l
      induction l with
      | nil =>
        intro _ gg hgg hInv
        refine ⟨marksExt_refl pred val gg, by simp, ?_⟩
        simpa using hInv
      | cons x xs ihl =>
        intro hmem gg hgg hInv
        have hedge : (src, hier, x) ∈ g.triples := hmem x (by simp)
        simp only [List.foldl_cons]
        by_cases hx : (x, pred, val) ∈ gg.triples
        · have hstep : propStep
              (fun g2 n => propagate_through_prop f g2 n hier pred val none)
              pred val none gg x = gg := by
            show (if (x, pred, val) ∈ gg.triples then gg
              else propagate_through_prop f (gg.add (x, pred, val)) x hier pred val
                none) = gg
            rw [if_pos hx]
          rw [hstep]
          obtain ⟨hext, hall, hinvE⟩ := ihl (fun y hy => hmem y (by simp [hy])) gg hgg hInv
          refine ⟨hext, ?_, hinvE⟩
          intro y hy
          rcases List.mem_cons.mp hy with heq | hy2
          · subst heq
            exact marksExt_sub hext _ hx
          · exact hall y hy2
        · have hstep : propStep
              (fun g2 n => propagate_through_prop f g2 n hier pred val none)
              pred val none gg x
              = propagate_through_prop f (gg.add (x, pred, val)) x hier pred val none := by
            show (if (x, pred, val) ∈ gg.triples then gg
              else propagate_through_prop f (gg.add (x, pred, val)) x hier pred val
                none) = _
            rw [if_neg hx]
          rw [hstep]
          have hfuel2 : unmarkedCount (gg.add (x, pred, val)) hier pred val + 1 ≤ f := by
            have h1 := unmarked_add_lt
              (mem_hierTargets (marksExt_sub hgg _ hedge)) hx (Ne.symm hpn)
            have h2 := unmarked_le_of_marksExt hgg (Ne.symm hpn)
            omega
          have hinv2 : ∀ m c, ¬(m = x ∨ (m = src ∨ S m)) →
              (m, pred, val) ∈ (gg.add (x, pred, val)).triples →
              (m, hier, c) ∈ (gg.add (x, pred, val)).triples →
              (c, pred, val) ∈ (gg.add (x, pred, val)).triples := by
            intro m c hm hmark hedge2
            push_neg at hm
            have hmark2 : (m, pred, val) ∈ gg.triples := by
              rcases Graph.mem_add.mp hmark with h1 | h1
              · exact h1
              · exact absurd (congrArg (fun t => t.1) h1) hm.1
            have hedge3 : (m, hier, c) ∈ gg.triples := by
              rcases Graph.mem_add.mp hedge2 with h1 | h1
              · exact h1
              · exact absurd (congrArg (fun t => t.2.1) h1) (Ne.symm hpn)
            exact marksExt_sub (marksExt_add pred val gg x) _
              (hInv m c (by tauto) hmark2 hedge3)
          obtain ⟨hch2, hinvR⟩ := ih (gg.add (x, pred, val)) x
            (fun m => m = src ∨ S m) hfuel2 hinv2
          have hext2 : MarksExt pred val gg
              (propagate_through_prop f (gg.add (x, pred, val)) x hier pred val none) :=
            marksExt_trans (marksExt_add pred val gg x) (prop_ext hier pred val f _ x)
          obtain ⟨hext3, hall3, hinvE3⟩ := ihl (fun y hy => hmem y (by simp [hy])) _
            (marksExt_trans hgg hext2)
            (by
              intro m c hm hmark hedge2
              exact hinvR m c hm hmark hedge2)
          refine ⟨marksExt_trans hext2 hext3, ?_, hinvE3⟩
          intro y hy
          rcases List.mem_cons.mp hy with heq | hy2
          · refine marksExt_sub hext3 _ ?_
            rw [heq]
            refine marksExt_sub (prop_ext hier pred val f _ x) _ ?_
            exact Graph.mem_add.mpr (Or.inr rfl)
          · exact hall3 y hy2
    have hres := inner ((g.objects src hier).reverse)
      (fun x hx => Graph.mem_objects.mp (List.mem_reverse.mp hx))
      g (marksExt_refl pred val g) hinv
    obtain ⟨hext, hall, hinvE⟩ := hres
    constructor
    · intro c hc
      exact hall c (List.mem_reverse.mpr hc)
    · intro m c hSm hmark hedge
      by_cases hms : m = src
      · subst hms
        have hedgeg : (m, hier, c) ∈ g.triples := by
          have hext0 : MarksExt pred val g
              (propagate_through_prop (f + 1) g m hier pred val none) :=
            prop_ext hier pred val (f + 1) g m
          exact (marksExt_edges hext0 (Ne.symm hpn)).mp hedge
        exact hall c (List.mem_reverse.mpr (Graph.mem_objects.mpr hedgeg))
      · exact hinvE m c (by tauto) hmark hedge

theorem marked_of_reach (hier pred val : Node) (hpn : pred ≠ hier)
    (fuel : Nat) (g : Graph) (src : Node)
    (hfuel : unmarkedCount g hier pred val + 1 ≤ fuel)
    (hnm : ∀ n, (n, pred, val) ∉ g.triples) :
    ∀ n, HierReach g hier src n →
      (n, pred, val) ∈ (propagate_through_prop fuel g src hier pred val none).triples := by
  obtain ⟨h1, h2⟩ := prop_complete hier pred val hpn fuel g src (fun _ => False) hfuel
    (fun m c _ hmark _ => absurd hmark (hnm m))
  have hsub : ∀ t ∈ g.triples,
      t ∈ (propagate_through_prop fuel g src hier pred val none).triples :=
    fun t ht => marksExt_sub (prop_ext hier pred val fuel g src) t ht
  have aux : ∀ m n, HierReach g hier m n → (m = src ∨
      (m, pred, val) ∈ (propagate_through_prop fuel g src hier pred val none).triples) →
      (n, pred, val) ∈ (propagate_through_prop fuel g src hier pred val none).triples := by
    intro m n hr
    induction hr with
    | step hedge =>
      intro hm
      rcases hm with rfl | hm
      · exact h1 _ (Graph.mem_objects.mpr hedge)
      · exact h2 _ _ (by simp) hm (hsub _ hedge)
    | tail hedge hr ih =>
      intro hm
      apply ih
      right
      rcases hm with rfl | hm
      · exact h1 _ (Graph.mem_objects.mpr hedge)
      · exact h2 _ _ (by simp) hm (hsub _ hedge)
  intro n hr
  exact aux src n hr (Or.inl rfl)

theorem prop_stable (hier pred val : Node) (hpn : pred ≠ hier) :
    ∀ (f : Nat), ∀ (g : Graph) (src : Node),
      unmarkedCount g hier pred val + 1 ≤ f →
      propagate_through_prop (f + 1) g src hier pred val none =
        propagate_through_prop f g src hier pred val none := by
  intro f
  induction f using Nat.strong_induction_on with
  | _ f ihs =>
    intro g src hfuel
    obtain ⟨f', rfl⟩ : ∃ f2, f = f2 + 1 := ⟨f - 1, by omega⟩
    have inner : ∀ (l : List Node), (∀ x ∈ l, (src, hier, x) ∈ g.triples) →
        ∀ (gg : Graph), MarksExt pred val g gg →
        l.foldl (propStep
            (fun g2 n => propagate_through_prop (f' + 1) g2 n hier pred val none)
            pred val none) gg
          = l.foldl (propStep
            (fun g2 n => propagate_through_prop f' g2 n hier pred val none)
            pred val none) gg := by
      intro l
      induction l with
      | nil => intro _ gg _; rfl
      | cons x xs ihl =>
        intro hmem gg hgg
        have hedge : (src, hier, x) ∈ g.triples := hmem x (by simp)
        simp only [List.foldl_cons]
        by_cases hx : (x, pred, val) ∈ gg.triples
        · have h1 : propStep
              (fun g2 n => propagate_through_prop (f' + 1) g2 n hier pred val none)
              pred val none gg x = gg := by
            show (if (x, pred, val) ∈ gg.triples then gg else _) = gg
            rw [if_pos hx]
          have h2 : propStep
              (fun g2 n => propagate_through_prop f' g2 n hier pred val none)
              pred val none gg x = gg := by
            show (if (x, pred, val) ∈ gg.triples then gg else _) = gg
            rw [if_pos hx]
          rw [h1, h2]
          exact ihl (fun y hy => hmem y (by simp [hy])) gg hgg
        · have hfuel2 : unmarkedCount (gg.add (x, pred, val)) hier pred val + 1 ≤ f' := by
            have ha := unmarked_add_lt
              (mem_hierTargets (marksExt_sub hgg _ hedge)) hx (Ne.symm hpn)
            have hb := unmarked_le_of_marksExt hgg (Ne.symm hpn)
            omega
          have h1 : propStep
              (fun g2 n => propagate_through_prop (f' + 1) g2 n hier pred val none)
              pred val none gg x
              = propagate_through_prop (f' + 1) (gg.add (x, pred, val)) x hier pred val
                none := by
            show (if (x, pred, val) ∈ gg.triples then gg else _) = _
            rw [if_neg hx]
          have h2 : propStep
              (fun g2 n => propagate_through_prop f' g2 n hier pred val none)
              pred val none gg x
              = propagate_through_prop f' (gg.add (x, pred, val)) x hier pred val
                none := by
            show (if (x, pred, val) ∈ gg.triples then gg else _) = _
            rw [if_neg hx]
          rw [h1, h2, ihs f' (by omega) (gg.add (x, pred, val)) x hfuel2]
          refine ihl (fun y hy => hmem y (by simp [hy])) _ ?_
          exact marksExt_trans hgg
            (marksExt_trans (marksExt_add pred val gg x)
              (prop_ext hier pred val f' _ x))
    exact inner ((g.objects src hier).reverse)
      (fun x hx => Graph.mem_objects.mp (List.mem_reverse.mp hx))
      g (marksExt_refl pred val g)

theorem prop_fuel_irrel (hier pred val : Node) (hpn : pred ≠ hier)
    (g : Graph) (src : Node) :
    ∀ fuel, unmarkedCount g hier pred val + 1 ≤ fuel →
      propagate_through_prop fuel g src hier pred val none =
        propagate_through_prop (unmarkedCount g hier pred val + 1) g src hier pred
          val none := by
  intro fuel
  induction fuel with
  | zero => intro h; omega
  | succ k ih =>
    intro h
    by_cases hk : unmarkedCount g hier pred val + 1 ≤ k
    · rw [prop_stable hier pred val hpn k g src hk, ih hk]
    · have heq : unmarkedCount g hier pred val + 1 = k + 1 := by omega
      rw [heq]

/-- C4: for any graph with no pre-existing `(·, pred, val)` marks and `pred ≠ hier`,
and any fuel of at least `unmarkedCount g hier pred val + 1` (a bound computed from
the finitely many hierarchy targets), `propagate_through_prop` (i) terminates — its
result is independent of the fuel from that bound on, so the recursion stabilises —
(ii) attaches the mark `(n, pred, val)` exactly to the nodes `n` reachable from
`src` via one or more `hier` hops (covering shared sub-nodes reachable by multiple
paths), (iii) adds nothing else to the graph, and (iv) keeps the triple list
duplicate-free, so each descendant carries the mark exactly once. -/
theorem spec_propagate_terminates_and_covers
    (g : Graph) (src hier pred val : Node) (fuel : Nat)
    (hpn : pred ≠ hier)
    (hnm : ∀ n, (n, pred, val) ∉ g.triples)
    (hnd : g.triples.Nodup)
    (hfuel : unmarkedCount g hier pred val + 1 ≤ fuel) :
    (propagate_through_prop fuel g src hier pred val none
      = propagate_through_prop (unmarkedCount g hier pred val + 1) g src hier pred
        val none) ∧
    (∀ n, (n, pred, val) ∈
        (propagate_through_prop fuel g src hier pred val none).triples
      ↔ HierReach g hier src n) ∧
    (∀ t ∈ (propagate_through_prop fuel g src hier pred val none).triples,
      t ∈ g.triples ∨ ∃ n, t = (n, pred, val) ∧ HierReach g hier src n) ∧
    (propagate_through_prop fuel g src hier pred val none).triples.Nodup := by
  refine ⟨prop_fuel_irrel hier pred val hpn g src fuel hfuel, ?_,
    prop_sound hier pred val hpn fuel g src,
    prop_nodup hier pred val fuel g src hnd⟩
  intro n
  constructor
  · intro hmark
    rcases prop_sound hier pred val hpn fuel g src _ hmark with hin | ⟨m, heq, hr⟩
    · exact absurd hin (hnm n)
    · have hn : n = m := by
        injection heq
      exact hn ▸ hr
  · exact marked_of_reach hier pred val hpn fuel g src hfuel hnm n

theorem spec_propagate_terminates_and_covers_witness :
    (propagate_through_prop 7 propCexGraph (LKG (("F2_s").toList)) R5_has_component
        (LKG (("marked").toList)) (lit (("y").toList)) none
      = propagate_through_prop
          (unmarkedCount propCexGraph R5_has_component (LKG (("marked").toList))
            (lit (("y").toList)) + 1)
          propCexGraph (LKG (("F2_s").toList)) R5_has_component
          (LKG (("marked").toList)) (lit (("y").toList)) none) ∧
    (∀ n, (n, LKG (("marked").toList), lit (("y").toList)) ∈
        (propagate_through_prop 7 propCexGraph (LKG (("F2_s").toList))
          R5_has_component (LKG (("marked").toList)) (lit (("y").toList))
          none).triples
      ↔ HierReach propCexGraph R5_has_component (LKG (("F2_s").toList)) n) ∧
    (∀ t ∈ (propagate_through_prop 7 propCexGraph (LKG (("F2_s").toList))
        R5_has_component (LKG (("marked").toList)) (lit (("y").toList))
        none).triples,
      t ∈ propCexGraph.triples ∨ ∃ n, t = (n, LKG (("marked").toList),
        lit (("y").toList)) ∧
        HierReach propCexGraph R5_has_component (LKG (("F2_s").toList)) n) ∧
    (propagate_through_prop 7 propCexGraph (LKG (("F2_s").toList)) R5_has_component
      (LKG (("marked").toList)) (lit (("y").toList)) none).triples.Nodup :=
  spec_propagate_terminates_and_covers propCexGraph (LKG (("F2_s").toList))
    R5_has_component (LKG (("marked").toList)) (lit (("y").toList)) 7
    (by decide)
    (fun n hmem =>
      (by decide :
        ∀ t ∈ propCexGraph.triples, t.2.1 ≠ LKG (("marked").toList)) _ hmem rfl)
    (by decide) (by decide)

/-! ### Derivative Inference Engine invariants (claim C3) -/

theorem infer_deriv_eq_leaf {f : Nat} {g2 : Graph} {sender : Node}
    (hchild : g2.objects sender R5_has_component = []) :
    _infer_derivative (f + 1) g2 sender
      = (match derivOptionObjects g2 sender with
         | [refnode] => (g2, some ((g2.predicates sender refnode).dedup, refnode))
         | _ => (g2, none)) := by
  simp only [_infer_derivative]
  rw [if_pos hchild]

theorem infer_deriv_eq_comp {f : Nat} {g2 : Graph} {sender : Node}
    (hchild : g2.objects sender R5_has_component ≠ []) :
    _infer_derivative (f + 1) g2 sender
      = (let acc := (g2.objects sender R5_has_component).foldl
          (fun (acc : Graph × List (Option (List Node × Node))) child =>
            let r := _infer_derivative f acc.1 child
            (r.1, acc.2 ++ [r.2])) (g2, [])
         if acc.2.all Option.isSome then
          let infos := acc.2.filterMap id
          if ((infos.map (fun i => i.2)).dedup).length = 1 then
            let outputprops := interAll (infos.map (fun i => i.1))
            match infos.head? with
            | none => (acc.1, none)
            | some info0 =>
              match acc.1.value info0.2 R5i_is_component_of with
              | some ref =>
                ((sortNodes outputprops).foldl
                  (fun gg p => gg.add (sender, p, ref)) acc.1,
                 some (outputprops, ref))
              | none => (acc.1, none)
          else (acc.1, none)
         else (acc.1, none)) := by
  simp only [_infer_derivative]
  rw [if_neg hchild]

theorem derivAsserted_refl (g : Graph) : DerivAsserted g g :=
  ⟨[], (List.append_nil _).symm, by simp⟩

theorem derivAsserted_sub {g g2 : Graph} (h : DerivAsserted g g2) :
    ∀ t ∈ g.triples, t ∈ g2.triples := by
  obtain ⟨ex, he, -⟩ := h
  intro t ht
  rw [he]
  exact List.mem_append_left _ ht

theorem derivAsserted_filter_eq {g g2 : Graph} (h : DerivAsserted g g2)
    (p : Triple → Bool)
    (hp : ∀ t, t.2.1 ∈ derivPreds → g.objects t.1 R5_has_component ≠ [] →
      t.1 ≠ t.2.2 → p t = false) :
    g2.triples.filter p = g.triples.filter p := by
  obtain ⟨ex, he, hex⟩ := h
  rw [he, List.filter_append]
  have hnil : ex.filter p = [] := by
    rw [List.filter_eq_nil_iff]
    intro t ht
    obtain ⟨h1, h2, h3⟩ := hex t ht
    simp [hp t h1 h2 h3]
  rw [hnil, List.append_nil]

theorem derivAsserted_objects_eq {g g2 : Graph} (h : DerivAsserted g g2)
    {q : Node} (hq : q ∉ derivPreds) (x : Node) :
    g2.objects x q = g.objects x q := by
  unfold Graph.objects
  rw [derivAsserted_filter_eq h _ ?_]
  intro t h1 _ _
  simp only [decide_eq_false_iff_not]
  rintro ⟨-, hqp⟩
  exact hq (hqp ▸ h1)

theorem derivAsserted_value_eq {g g2 : Graph} (h : DerivAsserted g g2)
    {q : Node} (hq : q ∉ derivPreds) (x : Node) :
    g2.value x q = g.value x q := by
  unfold Graph.value
  rw [derivAsserted_objects_eq h hq x]

theorem derivAsserted_leaf_filter_eq {g g2 : Graph} (h : DerivAsserted g g2)
    {x : Node} (hleaf : g.objects x R5_has_component = [])
    (p : Triple → Bool) (hp : ∀ t, p t = true → t.1 = x) :
    g2.triples.filter p = g.triples.filter p := by
  apply derivAsserted_filter_eq h
  intro t _ h2 _
  cases hpt : p t with
  | false => rfl
  | true =>
    rw [hp t hpt] at h2
    exact absurd hleaf h2

theorem derivAsserted_leaf_derivStep {g g2 : Graph} (h : DerivAsserted g g2)
    {x : Node} (hleaf : g.objects x R5_has_component = []) :
    derivStep g2 x = derivStep g x := by
  unfold derivStep
  rw [derivAsserted_leaf_filter_eq h hleaf _ ?_]
  intro t ht
  simp only [decide_eq_true_eq] at ht
  exact ht.1

theorem derivAsserted_leaf_predicates {g g2 : Graph} (h : DerivAsserted g g2)
    {x : Node} (hleaf : g.objects x R5_has_component = []) (y : Node) :
    g2.predicates x y = g.predicates x y := by
  unfold Graph.predicates
  rw [derivAsserted_leaf_filter_eq h hleaf _ ?_]
  intro t ht
  simp only [decide_eq_true_eq] at ht
  exact ht.1

theorem derivAsserted_add {g g2 : Graph} (h : DerivAsserted g g2) {t : Triple}
    (h1 : t.2.1 ∈ derivPreds) (h2 : g.objects t.1 R5_has_component ≠ [])
    (h3 : t.1 ≠ t.2.2) : DerivAsserted g (g2.add t) := by
  obtain ⟨ex, he, hex⟩ := h
  unfold Graph.add
  split
  · exact ⟨ex, he, hex⟩
  · refine ⟨ex ++ [t], ?_, ?_⟩
    · show g2.triples ++ [t] = g.triples ++ (ex ++ [t])
      rw [he, List.append_assoc]
    · intro u hu
      rcases List.mem_append.mp hu with hu | hu
      · exact hex u hu
      · rw [List.mem_singleton.mp hu]
        exact ⟨h1, h2, h3⟩

theorem forall₂_mem_left {α β : Type} {R : α → β → Prop} :
    ∀ {l1 : List α} {l2 : List β}, List.Forall₂ R l1 l2 →
      ∀ a ∈ l1, ∃ b ∈ l2, R a b := by
  intro l1
  induction l1 with
  | nil =>
    intro l2 _ a ha
    simp at ha
  | cons x xs ih =>
    intro l2 hf a ha
    cases hf with
    | cons hxy htail =>
      rcases List.mem_cons.mp ha with rfl | ha2
      · exact ⟨_, by simp, hxy⟩
      · obtain ⟨b, hb, hr⟩ := ih htail a ha2
        exact ⟨b, by simp [hb], hr⟩

theorem dedup_length_one {α : Type} [DecidableEq α] {l : List α}
    (h : l.dedup.length = 1) : ∀ a ∈ l, ∀ b ∈ l, a = b := by
  obtain ⟨c, hc⟩ := List.length_eq_one.mp h
  intro a ha b hb
  have ha2 : a ∈ l.dedup := List.mem_dedup.mpr ha
  have hb2 : b ∈ l.dedup := List.mem_dedup.mpr hb
  rw [hc, List.mem_singleton] at ha2 hb2
  rw [ha2, hb2]

theorem mem_of_mem_inter_fst {a : Node} : ∀ {l1 l2 : List Node},
    a ∈ l1.inter l2 → a ∈ l1 := by
  intro l1 l2 h
  unfold List.inter at h
  exact List.mem_of_mem_filter h

theorem foldl_inter_subset :
    ∀ (xs : List (List Node)) (x : List Node) (a : Node),
      a ∈ xs.foldl List.inter x → a ∈ x := by
  intro xs
  induction xs with
  | nil =>
    intro x a ha
    simpa using ha
  | cons y ys ih =>
    intro x a ha
    exact mem_of_mem_inter_fst (ih (x.inter y) a ha)

theorem mem_insertSorted {x a : Node} : ∀ {l : List Node},
    a ∈ insertSorted x l ↔ a = x ∨ a ∈ l := by
  intro l
  induction l with
  | nil => simp [insertSorted]
  | cons y ys ih =>
    simp only [insertSorted]
    split
    · simp [List.mem_cons]
    · rw [List.mem_cons, ih, List.mem_cons]
      tauto

theorem mem_sortNodes {a : Node} : ∀ {l : List Node}, a ∈ sortNodes l ↔ a ∈ l := by
  intro l
  induction l with
  | nil => simp [sortNodes]
  | cons x xs ih =>
    show a ∈ insertSorted x (sortNodes xs) ↔ a ∈ x :: xs
    rw [mem_insertSorted, ih, List.mem_cons]

theorem forall₂_mem_right {α β : Type} {R : α → β → Prop} :
    ∀ {l1 : List α} {l2 : List β}, List.Forall₂ R l1 l2 →
      ∀ b ∈ l2, ∃ a ∈ l1, R a b := by
  intro l1
  induction l1 with
  | nil =>
    intro l2 hf b hb
    cases hf
    simp at hb
  | cons x xs ih =>
    intro l2 hf b hb
    cases hf with
    | cons hxy htail =>
      rcases List.mem_cons.mp hb with rfl | hb2
      · exact ⟨x, by simp, hxy⟩
      · obtain ⟨a, ha, hr⟩ := ih htail b hb2
        exact ⟨a, by simp [ha], hr⟩

theorem Graph.mem_predicates {g : Graph} {s o q : Node} :
    q ∈ g.predicates s o ↔ (s, q, o) ∈ g.triples := by
  unfold Graph.predicates
  simp only [List.mem_map, List.mem_filter, decide_eq_true_eq]
  constructor
  · rintro ⟨⟨a, b, c⟩, ⟨ht, h1, h2⟩, rfl⟩
    simp only at h1 h2 ⊢
    rw [h1, h2] at ht
    exact ht
  · intro ht
    exact ⟨(s, q, o), ⟨ht, rfl, rfl⟩, rfl⟩

theorem infer_deriv_eq_comp2 {f : Nat} {g2 : Graph} {sender : Node}
    (hchild : g2.objects sender R5_has_component ≠ [])
    {g3 : Graph} {di : List (Option (List Node × Node))}
    (hacc : (g2.objects sender R5_has_component).foldl
        (fun (acc : Graph × List (Option (List Node × Node))) child =>
          let r := _infer_derivative f acc.1 child
          (r.1, acc.2 ++ [r.2])) (g2, []) = (g3, di)) :
    _infer_derivative (f + 1) g2 sender
      = (if di.all Option.isSome then
          if (((di.filterMap id).map (fun i => i.2)).dedup).length = 1 then
            match (di.filterMap id).head? with
            | none => (g3, none)
            | some info0 =>
              match g3.value info0.2 R5i_is_component_of with
              | some ref =>
                ((sortNodes (interAll ((di.filterMap id).map (fun i => i.1)))).foldl
                  (fun gg p => gg.add (sender, p, ref)) g3,
                 some (interAll ((di.filterMap id).map (fun i => i.1)), ref))
              | none => (g3, none)
          else (g3, none)
         else (g3, none)) := by
  rw [infer_deriv_eq_comp hchild, hacc]

theorem infer_deriv_aux (g : Graph) (hclean : derivOnlyLinks g)
    (hirr : derivIrreflexive g) (hpair : hierarchyPaired g) :
    ∀ (fuel : Nat) (g2 : Graph) (sender : Node), DerivAsserted g g2 →
      DerivAsserted g (_infer_derivative fuel g2 sender).1 ∧
      (∀ P τ, (_infer_derivative fuel g2 sender).2 = some (P, τ) →
        (∀ p ∈ P, p ∈ derivPreds) ∧ τ ≠ sender) := by
  intro fuel
  induction fuel with
  | zero =>
    intro g2 sender h2
    exact ⟨h2, fun P τ h => Option.noConfusion h⟩
  | succ f ih =>
    intro g2 sender h2
    by_cases hchild : g2.objects sender R5_has_component = []
    · -- leaf branch
      rw [infer_deriv_eq_leaf hchild]
      have hleafg : g.objects sender R5_has_component = [] := by
        rw [← derivAsserted_objects_eq h2 (by decide) sender]
        exact hchild
      cases hopt : derivOptionObjects g2 sender with
      | nil => exact ⟨h2, fun P τ h => Option.noConfusion h⟩
      | cons r rest =>
        cases rest with
        | nil =>
          refine ⟨h2, ?_⟩
          intro P τ hres
          have hres2 : some (((g2.predicates sender r).dedup : List Node), r)
              = some (P, τ) := hres
          simp only [Option.some.injEq, Prod.mk.injEq] at hres2
          obtain ⟨hP, hτ⟩ := hres2
          have hrmem : r ∈ derivStep g sender := by
            have hr1 : r ∈ derivOptionObjects g2 sender := by
              rw [hopt]
              simp
            unfold derivOptionObjects at hr1
            rw [derivAsserted_leaf_derivStep h2 hleafg] at hr1
            exact List.mem_dedup.mp hr1
          obtain ⟨p0, hp0, hedge⟩ := mem_derivStep.mp hrmem
          constructor
          · intro p hp
            rw [← hP] at hp
            have hp2 : p ∈ g2.predicates sender r := List.mem_dedup.mp hp
            rw [derivAsserted_leaf_predicates h2 hleafg] at hp2
            have hp3 : (sender, p, r) ∈ g.triples := Graph.mem_predicates.mp hp2
            exact hclean (sender, p0, r) hedge (sender, p, r) hp3 hp0 rfl rfl
          · rw [← hτ]
            intro hrs
            rw [hrs] at hedge
            exact hirr _ hedge hp0 rfl
        | cons r2 rest2 => exact ⟨h2, fun P τ h => Option.noConfusion h⟩
    · -- composite branch
      have hcompg : g.objects sender R5_has_component ≠ [] := by
        rw [← derivAsserted_objects_eq h2 (by decide) sender]
        exact hchild
      have hfold : ∀ (cs : List Node) (gg : Graph)
          (done : List (Option (List Node × Node))), DerivAsserted g gg →
          ∃ g3 rs, cs.foldl
              (fun (acc : Graph × List (Option (List Node × Node))) child =>
                let r := _infer_derivative f acc.1 child
                (r.1, acc.2 ++ [r.2])) (gg, done) = (g3, done ++ rs) ∧
            DerivAsserted g g3 ∧
            List.Forall₂ (fun c rr => ∃ gh, DerivAsserted g gh ∧
              (_infer_derivative f gh c).2 = rr) cs rs := by
        intro cs
        induction cs with
        | nil =>
          intro gg done hgg
          exact ⟨gg, [], by simp, hgg, List.Forall₂.nil⟩
        | cons c cs' ihc =>
          intro gg done hgg
          obtain ⟨hql, -⟩ := ih gg c hgg
          obtain ⟨g3, rs, heq, hg3, hf2⟩ := ihc (_infer_derivative f gg c).1
            (done ++ [(_infer_derivative f gg c).2]) hql
          refine ⟨g3, (_infer_derivative f gg c).2 :: rs, ?_, hg3, ?_⟩
          · have hunf : List.foldl
                (fun (acc : Graph × List (Option (List Node × Node))) child =>
                  let r := _infer_derivative f acc.1 child
                  (r.1, acc.2 ++ [r.2])) (gg, done) (c :: cs')
                = List.foldl
                  (fun (acc : Graph × List (Option (List Node × Node))) child =>
                    let r := _infer_derivative f acc.1 child
                    (r.1, acc.2 ++ [r.2]))
                  ((_infer_derivative f gg c).1,
                   done ++ [(_infer_derivative f gg c).2]) cs' := rfl
            rw [hunf, heq, List.append_assoc]
            rfl
          · exact List.Forall₂.cons ⟨gg, hgg, rfl⟩ hf2
      obtain ⟨g3, di, hacc0, hg3, hf2⟩ :=
        hfold (g2.objects sender R5_has_component) g2 [] h2
      rw [List.nil_append] at hacc0
      rw [infer_deriv_eq_comp2 hchild hacc0]
      by_cases hall : di.all Option.isSome
      · rw [if_pos hall]
        by_cases hlen : (((di.filterMap id).map (fun i => i.2)).dedup).length = 1
        · rw [if_pos hlen]
          cases hh : (di.filterMap id).head? with
          | none => exact ⟨hg3, fun P τ h => Option.noConfusion h⟩
          | some info0 =>
            show DerivAsserted g
                (match g3.value info0.2 R5i_is_component_of with
                 | some ref =>
                   ((sortNodes (interAll
                       ((di.filterMap id).map
                         (fun (i : List Node × Node) => i.1)))).foldl
                     (fun (gg : Graph) (p : Node) => gg.add (sender, p, ref)) g3,
                    some (interAll ((di.filterMap id).map
                      (fun (i : List Node × Node) => i.1)), ref))
                 | none => (g3, none)).1 ∧
              (∀ P τ, (match g3.value info0.2 R5i_is_component_of with
                 | some ref =>
                   ((sortNodes (interAll
                       ((di.filterMap id).map
                         (fun (i : List Node × Node) => i.1)))).foldl
                     (fun (gg : Graph) (p : Node) => gg.add (sender, p, ref)) g3,
                    some (interAll ((di.filterMap id).map
                      (fun (i : List Node × Node) => i.1)), ref))
                 | none => (g3, none)).2 = some (P, τ) →
                (∀ p ∈ P, p ∈ derivPreds) ∧ τ ≠ sender)
            -- facts about infos
            have hisSome : ∀ r ∈ di, r.isSome = true := by
              intro r hr
              exact List.all_eq_true.mp hall r hr
            have hmem_infos : ∀ i ∈ di.filterMap id, some i ∈ di := by
              intro i hi
              obtain ⟨a, ha, hai⟩ := List.mem_filterMap.mp hi
              cases a with
              | none => exact Option.noConfusion hai
              | some b =>
                have hbi : b = i := by simpa using hai
                exact hbi ▸ ha
            have hinfo0 : info0 ∈ di.filterMap id :=
              List.mem_of_mem_head? (by rw [hh]; rfl)
            have htgt : ∀ i ∈ di.filterMap id, i.2 = info0.2 := by
              intro i hi
              exact dedup_length_one hlen i.2
                (List.mem_map.mpr ⟨i, hi, rfl⟩)
                info0.2 (List.mem_map.mpr ⟨info0, hinfo0, rfl⟩)
            -- per-info invariants via the fuel IH
            have hinv : ∀ i ∈ di.filterMap id,
                (∀ p ∈ i.1, p ∈ derivPreds) ∧
                ∃ c ∈ g2.objects sender R5_has_component, i.2 ≠ c := by
              intro i hi
              obtain ⟨c, hc, gh, hgh, hres⟩ :=
                forall₂_mem_right hf2 (some i) (hmem_infos i hi)
              have := (ih gh c hgh).2 i.1 i.2 (by rw [hres])
              exact ⟨this.1, c, hc, this.2⟩
            cases hv : g3.value info0.2 R5i_is_component_of with
            | none => exact ⟨hg3, fun P τ h => Option.noConfusion h⟩
            | some ref =>
              -- props ⊆ derivPreds
              have hprops : ∀ p ∈ interAll ((di.filterMap id).map (fun i => i.1)),
                  p ∈ derivPreds := by
                intro p hp
                cases hfm : di.filterMap id with
                | nil =>
                  rw [hfm] at hh
                  exact Option.noConfusion hh
                | cons i0 rest =>
                  rw [hfm] at hp
                  have hp1 : p ∈ i0.1 := by
                    have : p ∈ (rest.map (fun i => i.1)).foldl List.inter i0.1 := hp
                    exact foldl_inter_subset _ _ _ this
                  have hi0 : i0 ∈ di.filterMap id := by
                    rw [hfm]
                    simp
                  exact ((hinv i0 hi0).1) p hp1
              -- ref ≠ sender
              have hrefs : ref ≠ sender := by
                intro hrs
                rw [hrs] at hv
                rw [derivAsserted_value_eq hg3 (by decide) info0.2] at hv
                have hedge := mem_of_value hv
                have hpar := hpair.1 (info0.2, R5i_is_component_of, sender) hedge rfl
                have hobj : info0.2 ∈ g2.objects sender R5_has_component := by
                  rw [derivAsserted_objects_eq h2 (by decide) sender]
                  exact Graph.mem_objects.mpr hpar
                obtain ⟨r, hr, gh, hgh, hres⟩ := forall₂_mem_left hf2 info0.2 hobj
                have hrs2 := hisSome r hr
                obtain ⟨j, rfl⟩ := Option.isSome_iff_exists.mp hrs2
                have hj : j ∈ di.filterMap id := by
                  apply List.mem_filterMap.mpr
                  exact ⟨some j, hr, rfl⟩
                have hj2 := htgt j hj
                have := (ih gh info0.2 hgh).2 j.1 j.2 (by rw [hres])
                exact this.2 hj2
              constructor
              · -- extension invariant of the assertion fold
                have haddfold : ∀ (ps : List Node) (gg : Graph),
                    DerivAsserted g gg → (∀ p ∈ ps, p ∈ derivPreds) →
                    DerivAsserted g
                      (ps.foldl (fun gg p => gg.add (sender, p, ref)) gg) := by
                  intro ps
                  induction ps with
                  | nil => intro gg hgg _; exact hgg
                  | cons p ps' ihp =>
                    intro gg hgg hps
                    rw [List.foldl_cons]
                    exact ihp _ (derivAsserted_add hgg (hps p (by simp)) hcompg
                      (Ne.symm hrefs)) (fun q hq => hps q (by simp [hq]))
                exact haddfold _ g3 hg3
                  (fun p hp => hprops p (mem_sortNodes.mp hp))
              · intro P τ hres
                have hres2 : some ((interAll ((di.filterMap id).map (fun i => i.1))
                    : List Node), ref) = some (P, τ) := hres
                simp only [Option.some.injEq, Prod.mk.injEq] at hres2
                obtain ⟨hP, hτ⟩ := hres2
                rw [← hP, ← hτ]
                exact ⟨hprops, hrefs⟩
        · rw [if_neg hlen]
          exact ⟨hg3, fun P τ h => Option.noConfusion h⟩
      · rw [if_neg hall]
        exact ⟨hg3, fun P τ h => Option.noConfusion h⟩

theorem infer_derivatives_asserted (g : Graph) (hclean : derivOnlyLinks g)
    (hirr : derivIrreflexive g) (hpair : hierarchyPaired g) :
    DerivAsserted g (infer_derivatives g) := by
  unfold infer_derivatives
  have hgen : ∀ (ss : List Node) (gg : Graph), DerivAsserted g gg →
      DerivAsserted g (ss.foldl
        (fun gg s => if (gg.value s R5i_is_component_of).isSome then gg
          else (_infer_derivative (derivFuel gg) gg s).1) gg) := by
    intro ss
    induction ss with
    | nil => intro gg h; exact h
    | cons s ss' ih2 =>
      intro gg h
      have hunf : (s :: ss').foldl
          (fun gg s => if (gg.value s R5i_is_component_of).isSome then gg
            else (_infer_derivative (derivFuel gg) gg s).1) gg
          = ss'.foldl
          (fun gg s => if (gg.value s R5i_is_component_of).isSome then gg
            else (_infer_derivative (derivFuel gg) gg s).1)
          (if (gg.value s R5i_is_component_of).isSome then gg
            else (_infer_derivative (derivFuel gg) gg s).1) := rfl
      rw [hunf]
      by_cases hv : (gg.value s R5i_is_component_of).isSome
      · rw [if_pos hv]
        exact ih2 gg h
      · rw [if_neg hv]
        exact ih2 _ (infer_deriv_aux g hclean hirr hpair (derivFuel gg) gg s h).1
  exact hgen _ g (derivAsserted_refl g)

/-- C3 (amended): on an input graph whose derivative-type relations are
asymmetric and irreflexive, whose component hierarchy is stored with both
inverse directions, and whose derivative-linked node pairs are linked only
by derivative-type predicates, every triple the Derivative Inference Engine
adds (present in the output, beyond the input) is a derivative-type relation
`(A, p, B)` whose subject `A` is a composite node and with `A ≠ B` — the
engine never synthesizes a self-derivative.  (The original claim's other
half is false: `(B, p, A)` may still hold in the resulting graph, because a
pre-existing reverse relation in the input is never checked or removed —
see the counterexample theorem.) -/
theorem spec_infer_derivatives_no_self_derivative (g : Graph)
    (hclean : derivOnlyLinks g) (hirr : derivIrreflexive g)
    (hpair : hierarchyPaired g) :
    ∃ ex, (infer_derivatives g).triples = g.triples ++ ex ∧
      ∀ t ∈ ex, t.2.1 ∈ derivPreds ∧ g.objects t.1 R5_has_component ≠ [] ∧
        t.1 ≠ t.2.2 :=
  infer_derivatives_asserted g hclean hirr hpair

theorem spec_infer_derivatives_no_self_derivative_witness :
    ∃ ex, (infer_derivatives derivWitGraph).triples
        = derivWitGraph.triples ++ ex ∧
      ∀ t ∈ ex, t.2.1 ∈ derivPreds ∧
        derivWitGraph.objects t.1 R5_has_component ≠ [] ∧ t.1 ≠ t.2.2 :=
  spec_infer_derivatives_no_self_derivative derivWitGraph (by decide) (by decide)
    (by decide)
